import Mathlib

/-!
# Verification of the two-phase election provider pallet

A shallow embedding, in Lean 4, of the `two_phase` election provider module
(`src/frame/election-providers/exapnded.test.rs`, the expanded source of
`frame/election-providers/src/two_phase/mod.rs` and its compact-solution codec).

Conventions of the embedding:

* Machine integers (`u16`, `u32`, `u64`, `u128`, `usize`) are modelled as `Nat`.
  The only places where bounded arithmetic is observable in the verified code
  paths are the saturating operations of `PerU16` (fixed-point parts out of
  `65535`), which are modelled explicitly (`satAddPerU16`), and truncated
  subtraction, for which `Nat` subtraction agrees with the source's
  `checked_sub`/`saturating_sub` use sites.
* Storage items of the pallet become fields of an explicit `State` record;
  a dispatchable returns its result together with the (possibly) updated state.
  FRAME of this era does not roll storage back on error, which is why the
  source is careful to perform all writes after all checks; the embedding
  mirrors the exact write order of the source.
* The configuration trait `T: Trait` becomes a `Config` record.  External
  collaborators that live outside `src/` (the currency ledger, the SCALE
  codec length, the snapshot data provider, and the heavy numeric helpers of
  `sp_npos_elections`: `assignment_ratio_to_staked_normalized`, `to_supports`,
  `evaluate`, the on-chain fallback solver) are fields of `Config`/`Ledger`
  modelled from the spec (see the doc comments on each).
-/

namespace TwoPhase

/-- Account identifiers (`T::AccountId`, `u64` in the mock). -/
abbrev AccountId := Nat

/-- Balances (`BalanceOf<T>`, `u64` in the mock). -/
abbrev Balance := Nat

/-- `ElectionScore = [ExtendedBalance; 3]`: the 3-tuple objective value. -/
structure ElectionScore where
  s0 : Nat
  s1 : Nat
  s2 : Nat
deriving DecidableEq, Repr, Inhabited

/-- A snapshot voter row: `(T::AccountId, VoteWeight, Vec<T::AccountId>)`. -/
structure Voter where
  who : AccountId
  stake : Nat
  votes : List AccountId
deriving DecidableEq, Repr

/-- `Phase<Bn>`: `Off | Signed | Unsigned((bool, Bn))`. -/
inductive Phase where
  | off : Phase
  | signed : Phase
  | unsigned : Bool → Nat → Phase
deriving DecidableEq, Repr

/-- `Phase::is_signed`. -/
def Phase.is_signed : Phase → Bool
  | .signed => true
  | _ => false

/-- `Phase::is_unsigned_open`: matches `Phase::Unsigned((true, _))`. -/
def Phase.is_unsigned_open : Phase → Bool
  | .unsigned true _ => true
  | _ => false

/-- `Phase::is_off`. -/
def Phase.is_off : Phase → Bool
  | .off => true
  | _ => false

/-- `ElectionCompute`: which computation produced an election result. -/
inductive ElectionCompute where
  | onChain
  | signed
  | unsigned
deriving DecidableEq, Repr

/-- Errors of `sp_npos_elections` that the compact codec produces
(`_npos::Error`); `otherNpos` stands for the remaining variants, which the
code under `src/` only passes through. -/
inductive NposError where
  | compactInvalidIndex
  | compactTargetOverflow
  | compactStakeOverflow
  | otherNpos
deriving DecidableEq, Repr

/-- `FeasibilityError` of the pallet. -/
inductive FeasibilityError where
  | wrongWinnerCount
  | snapshotUnavailable
  | nposElectionError (e : NposError)
  | invalidVote
  | invalidVoter
  | invalidWinner
  | invalidScore
deriving DecidableEq, Repr

/-- Dispatch-level errors of the two calls: `BadOrigin` from
`ensure_signed`/`ensure_none`, the `PalletError` variants, and the literal
`"QueueFull"` string error of `submit`. -/
inductive DispatchError where
  | badOrigin
  | earlySubmission
  | weakSubmission
  | queueFull
  | cannotPayDeposit
deriving DecidableEq, Repr

/-- The pallet-level `Error` enum (used by `elect` / the miner). -/
inductive PalletFlowError where
  | feasibility (e : FeasibilityError)
  | onChainFallback
  | nposElections (e : NposError)
  | snapshotUnAvailable
  | poolSubmissionFailed
deriving DecidableEq, Repr

/-! ## Score comparison

`is_score_better` lives in `sp_npos_elections`, which is part of this
repository but not under `src/`. -/

/-- Perbill `mul_ceil`: `⌈p·x / 10^9⌉` for a `Perbill` with `p` parts. -/
def mulCeilPerbill (p x : Nat) : Nat := (p * x + (1000000000 - 1)) / 1000000000

/-- Threshold comparison (`tcmp`): `a` compared with `b` up to a
tolerance `th` (values within the tolerance count as equal). -/
def tcmp (a b th : Nat) : Ordering :=
  if b + th < a then .gt
  else if a + th < b then .lt
  else .eq

/-- Modelled from the spec: `sp_npos_elections::is_score_better` is not under
`src/`.  Per §3 the score 3-tuple is "compared lexicographically then by an
improvement-threshold rule", the threshold being a `Perbill` `epsilon`
applied to the reference component (`epsilon.mul_ceil(that[i])`), the first
two components maximised, the third minimised, and (§4.2) an equal score is
never an improvement.  `this` is better than `that` iff it is
more-than-threshold greater in component 0, or at-least-equal there (within
threshold) and more-than-threshold greater in component 1, or at-least-equal
in both and more-than-threshold smaller in component 2. -/
def is_score_better (this that : ElectionScore) (epsilon : Nat) : Bool :=
  let c0 := tcmp this.s0 that.s0 (mulCeilPerbill epsilon that.s0)
  let c1 := tcmp this.s1 that.s1 (mulCeilPerbill epsilon that.s1)
  let c2 := tcmp this.s2 that.s2 (mulCeilPerbill epsilon that.s2)
  if c0 = .gt then true
  else if this.s0 ≥ that.s0 ∧ c0 = .eq ∧ c1 = .gt then true
  else if this.s0 ≥ that.s0 ∧ c0 = .eq ∧ this.s1 ≥ that.s1 ∧ c1 = .eq ∧ c2 = .lt then
    true
  else false

example : is_score_better ⟨10, 0, 0⟩ ⟨5, 0, 0⟩ 0 = true := by decide
example : is_score_better ⟨5, 0, 0⟩ ⟨5, 0, 0⟩ 0 = false := by decide
example : is_score_better ⟨5, 7, 0⟩ ⟨5, 6, 0⟩ 0 = true := by decide
example : is_score_better ⟨5, 6, 1⟩ ⟨5, 6, 2⟩ 0 = true := by decide
-- with a 100% threshold, 41 beats 20 but 30 does not:
example : is_score_better ⟨41, 0, 0⟩ ⟨20, 0, 0⟩ 1000000000 = true := by decide
example : is_score_better ⟨30, 0, 0⟩ ⟨20, 0, 0⟩ 1000000000 = false := by decide

theorem mulCeilPerbill_mono (eps : Nat) {x y : Nat} (h : x ≤ y) :
    mulCeilPerbill eps x ≤ mulCeilPerbill eps y :=
  Nat.div_le_div_right (Nat.add_le_add_right (Nat.mul_le_mul_left _ h) _)

/-- Arithmetic characterisation of `is_score_better`. -/
theorem is_score_better_iff (a b : ElectionScore) (eps : Nat) :
    is_score_better a b eps = true ↔
      (b.s0 + mulCeilPerbill eps b.s0 < a.s0) ∨
      (b.s0 ≤ a.s0 ∧ a.s0 ≤ b.s0 + mulCeilPerbill eps b.s0 ∧
        b.s1 + mulCeilPerbill eps b.s1 < a.s1) ∨
      (b.s0 ≤ a.s0 ∧ a.s0 ≤ b.s0 + mulCeilPerbill eps b.s0 ∧
        b.s1 ≤ a.s1 ∧ a.s1 ≤ b.s1 + mulCeilPerbill eps b.s1 ∧
        a.s2 + mulCeilPerbill eps b.s2 < b.s2) := by
  simp only [is_score_better, tcmp, ge_iff_le]
  split_ifs <;> simp_all <;> omega

/-- An equal score is never an improvement: `is_score_better` is irreflexive. -/
theorem is_score_better_irrefl (s : ElectionScore) (eps : Nat) :
    is_score_better s s eps = false := by
  cases h : is_score_better s s eps with
  | false => rfl
  | true => rw [is_score_better_iff] at h; omega

/-- Quasi-transitivity of the threshold ordering: if `x` is an
improvement over `b` but `a` is not, then `a` is not an improvement
over `x` either.  This is what makes insertion keep the queue sorted. -/
theorem is_score_better_trans_not (a x b : ElectionScore) (eps : Nat)
    (hx : is_score_better x b eps = true)
    (ha : is_score_better a b eps = false) :
    is_score_better a x eps = false := by
  cases hax : is_score_better a x eps with
  | false => rfl
  | true =>
    exfalso
    have hb : is_score_better a b eps = true := by
      rw [is_score_better_iff] at hx hax ⊢
      rcases hx with h | h | h
      · omega
      · have m0 : mulCeilPerbill eps b.s0 ≤ mulCeilPerbill eps x.s0 :=
          mulCeilPerbill_mono eps (by omega)
        omega
      · have m0 : mulCeilPerbill eps b.s0 ≤ mulCeilPerbill eps x.s0 :=
          mulCeilPerbill_mono eps (by omega)
        have m1 : mulCeilPerbill eps b.s1 ≤ mulCeilPerbill eps x.s1 :=
          mulCeilPerbill_mono eps (by omega)
        omega
    rw [ha] at hb
    exact Bool.noConfusion hb

/-! ## The compact solution codec (`TestCompact`)

The generated struct has sixteen fields `votes1 .. votes16`, one per
fan-out arity; field `votesK` holds fixed-arity tuples
`(voterIndex, [(targetIndex, PerU16); K-1], lastTargetIndex)`.  The
embedding represents them uniformly: `buckets.get (K-1)` is field
`votesK`, an arity-`K` tuple is a `CVote` whose `inners` list has
`K-1` elements (so arity-1 entries, which the source stores as bare
`(u32, u16)` pairs, have `inners = []`).  `Default::default()` is
sixteen empty buckets.  `PerU16` values are their parts out of
`65535 = PerU16::one()`; every `u16` bit pattern is a valid `PerU16`,
so shares are plain `Nat`s and the saturating addition caps at `65535`. -/

/-- One compact vote tuple: `(voter, [(target, share); k-1], lastTarget)`. -/
structure CVote where
  voter : Nat
  inners : List (Nat × Nat)
  tlast : Nat
deriving DecidableEq, Repr

/-- The bucketed-by-fan-out compact solution type. -/
structure TestCompact where
  buckets : List (List CVote)
deriving DecidableEq, Repr, Inhabited

/-- `Default::default()`: all sixteen buckets empty. -/
def TestCompact.default16 : TestCompact := ⟨List.replicate 16 []⟩

/-- `CompactSolution::len`: the sum of the bucket lengths (the number of
voters in the compact).  The source's `saturating_add` cannot saturate on
`Nat`. -/
def TestCompact.len (c : TestCompact) : Nat :=
  c.buckets.foldl (fun n b => n + b.length) 0

/-- `PerU16` saturating addition (`Saturating::saturating_add`), capped at
`PerU16::one() = u16::MAX = 65535`. -/
def satAddPerU16 (a b : Nat) : Nat := min (a + b) 65535

/-- `maybe_insert_target`: binary-search a sorted accumulator and insert at
the reported position when absent (sorted insertion without duplicates). -/
def sortedInsertNoDup (t : Nat) : List Nat → List Nat
  | [] => [t]
  | x :: xs =>
    if t < x then t :: x :: xs
    else if t = x then x :: xs
    else x :: sortedInsertNoDup t xs

/-- `CompactSolution::unique_targets`: sweep every referenced target index,
explicit inners first and the implicit last target after them, bucket by
bucket in increasing arity order, into a sorted duplicate-free list. -/
def TestCompact.unique_targets (c : TestCompact) : List Nat :=
  c.buckets.foldl
    (fun acc bucket =>
      bucket.foldl
        (fun acc e =>
          sortedInsertNoDup e.tlast
            (e.inners.foldl (fun acc tp => sortedInsertNoDup tp.1 acc) acc))
        acc)
    []

/-- Helper for `CompactSolution::remove_voter`: scan the buckets in
increasing arity order; in the first bucket containing the voter, remove the
first matching tuple and short-circuit. -/
def removeVoterBuckets (v : Nat) : List (List CVote) → Bool × List (List CVote)
  | [] => (false, [])
  | b :: bs =>
    if b.any (fun e => e.voter = v) then
      (true, b.eraseP (fun e => e.voter = v) :: bs)
    else
      let r := removeVoterBuckets v bs
      (r.1, b :: r.2)

/-- `CompactSolution::remove_voter`: returns whether a tuple was removed,
together with the updated compact. -/
def TestCompact.remove_voter (c : TestCompact) (v : Nat) : Bool × TestCompact :=
  let r := removeVoterBuckets v c.buckets
  (r.1, ⟨r.2⟩)

/-- An NPoS assignment: `(who, [(target, PerU16 share)])`. -/
structure Assignment (A : Type) where
  who : A
  distribution : List (A × Nat)
deriving DecidableEq, Repr

/-- `or_invalid_index`: `Option` to `Result` with `Error::CompactInvalidIndex`. -/
def orInvalidIndex {α : Type} : Option α → Except NposError α
  | some a => .ok a
  | none => .error .compactInvalidIndex

/-- Append one encoded tuple to bucket `k` (`compact.votesK.push(..)` with
`k = arity - 1`). -/
def TestCompact.push (c : TestCompact) (k : Nat) (e : CVote) : TestCompact :=
  ⟨c.buckets.set k ((c.buckets.getD k []) ++ [e])⟩

/-- One iteration of `from_assignment`'s loop: dispatch on
`distribution.len()`; `0` entries are skipped (`continue`), arities `1..16`
are encoded into the matching bucket (all-but-last targets keep their
explicit share, the last target index is stored bare), anything larger is
`Error::CompactTargetOverflow`. -/
def fromAssignmentOne {A : Type} (vIdx tIdx : A → Option Nat)
    (c : TestCompact) (a : Assignment A) : Except NposError TestCompact :=
  let k := a.distribution.length
  if k = 0 then .ok c
  else if k ≤ 16 then do
    let v ← orInvalidIndex (vIdx a.who)
    let inners ← a.distribution.dropLast.mapM (fun tp => do
      let t ← orInvalidIndex (tIdx tp.1)
      pure (t, tp.2))
    let tl ← match a.distribution.getLast? with
      | some tp => orInvalidIndex (tIdx tp.1)
      | none => .error .compactInvalidIndex
    pure (c.push (k - 1) ⟨v, inners, tl⟩)
  else .error .compactTargetOverflow

/-- `CompactSolution::from_assignment`. -/
def from_assignment {A : Type} (vIdx tIdx : A → Option Nat)
    (assignments : List (Assignment A)) : Except NposError TestCompact :=
  assignments.foldlM (fromAssignmentOne vIdx tIdx) TestCompact.default16

/-- Decode one compact tuple back to an assignment: the explicit shares are
summed with `PerU16` saturating addition; a sum at or above
`PerU16::one()` is `Error::CompactStakeOverflow`; the implicit last share is
`one - sum`.  (For arity 1 the inners are empty, so the single target gets
share `one` and the overflow check cannot fire, exactly as in the source's
`votes1` arm.) -/
def decodeCVote {A : Type} (vAt tAt : Nat → Option A) (e : CVote) :
    Except NposError (Assignment A) := do
  let sum := e.inners.foldl (fun acc tp => satAddPerU16 acc tp.2) 0
  let inners ← e.inners.mapM (fun tp => do
    let t ← orInvalidIndex (tAt tp.1)
    pure (t, tp.2))
  if 65535 ≤ sum then .error .compactStakeOverflow
  else do
    let tl ← orInvalidIndex (tAt e.tlast)
    let v ← orInvalidIndex (vAt e.voter)
    pure (Assignment.mk v (inners ++ [(tl, 65535 - sum)]))

/-- `CompactSolution::into_assignment`: decode bucket by bucket in
increasing arity order, failing the whole operation on the first bad
entry. -/
def TestCompact.into_assignment {A : Type} (c : TestCompact)
    (vAt tAt : Nat → Option A) : Except NposError (List (Assignment A)) :=
  c.buckets.flatten.mapM (decodeCVote vAt tAt)

/-! ## Pallet data types -/

/-- `RawSolution`: an unchecked compact plus its claimed score. -/
structure RawSolution where
  compact : TestCompact
  score : ElectionScore
deriving DecidableEq, Repr, Inhabited

/-- `SignedSubmission`: a queue entry. -/
structure SignedSubmission where
  who : AccountId
  deposit : Balance
  reward : Balance
  solution : RawSolution
deriving DecidableEq, Repr, Inhabited

/-- A winner's `Support`: total backing plus per-backer contributions. -/
structure Support where
  total : Nat
  voters : List (AccountId × Nat)
deriving DecidableEq, Repr

/-- `Supports<AccountId>`. -/
abbrev Supports := List (AccountId × Support)

/-- `ReadySolution`: the accepted output of a round. -/
structure ReadySolution where
  supports : Supports
  score : ElectionScore
  compute : ElectionCompute
deriving DecidableEq, Repr

/-! ## The external deposit ledger

Modelled from the spec: the currency/ledger primitives (`reserve`,
`unreserve`, `slash_reserved`, `deposit_creating` of `T::Currency`) are
external collaborators (§1, §6).  Per §6 they fully succeed or leave
state unchanged; each account has a free and a reserved balance,
`reserve` moves free funds into reserve and fails (leaving the ledger
unchanged) when the free balance is insufficient, `unreserve` moves
reserved funds back to free, `slash_reserved` burns reserved funds, and
`deposit_creating` mints into the free balance.  The partial variants
move at most what is reserved and report the shortfall, which the
source only `debug_assert!`s to be zero. -/
structure Ledger where
  free : AccountId → Balance
  reserved : AccountId → Balance

/-- `T::Currency::reserve`: fails (no change) on insufficient free funds. -/
def Ledger.reserve (l : Ledger) (who : AccountId) (amt : Balance) : Option Ledger :=
  if l.free who < amt then none
  else
    some
      { free := fun a => if a = who then l.free who - amt else l.free a,
        reserved := fun a => if a = who then l.reserved who + amt else l.reserved a }

/-- `T::Currency::unreserve`: moves `min amt reserved` back to free. -/
def Ledger.unreserve (l : Ledger) (who : AccountId) (amt : Balance) : Ledger :=
  let moved := min amt (l.reserved who)
  { free := fun a => if a = who then l.free who + moved else l.free a,
    reserved := fun a => if a = who then l.reserved who - moved else l.reserved a }

/-- `T::Currency::slash_reserved`: burns `min amt reserved` from reserve. -/
def Ledger.slashReserved (l : Ledger) (who : AccountId) (amt : Balance) : Ledger :=
  let slashed := min amt (l.reserved who)
  { free := l.free,
    reserved := fun a => if a = who then l.reserved who - slashed else l.reserved a }

/-- `T::Currency::deposit_creating`: mints `amt` into the free balance. -/
def Ledger.depositCreating (l : Ledger) (who : AccountId) (amt : Balance) : Ledger :=
  { free := fun a => if a = who then l.free who + amt else l.free a,
    reserved := l.reserved }

/-- The configuration trait `T: Trait` plus the external collaborators the
pallet calls through it.  The function-valued fields stand for code of this
repository that is not under `src/` and are modelled from the spec:
`encodedLen` for the SCALE codec length used by `deposit_for` (serialization
substrate, out of scope per §1), `nextElectionPrediction` / `dpTargets` /
`dpVoters` / `dpDesired` / `dataProviderCheck` for the snapshot data
provider (§6), `ratioToStaked` / `toSupports` / `evaluateSupports` for the
`sp_npos_elections` helpers a feasibility check calls (§4.3 steps 4-5), and
`onchainElect` for the fallback solver (§2). -/
structure Config where
  maxSignedSubmissions : Nat
  solutionImprovementThreshold : Nat
  signedPhase : Nat
  unsignedPhase : Nat
  signedRewardBase : Balance
  signedRewardFactor : Nat
  signedDepositBase : Balance
  signedDepositByte : Balance
  signedDepositWeight : Balance
  feasibilityWeight : Nat
  submitUnsignedWeight : Nat
  encodedLen : RawSolution → Nat
  nextElectionPrediction : Nat → Nat
  dpTargets : List AccountId
  dpVoters : List Voter
  dpDesired : Nat
  dataProviderCheck : AccountId → List (AccountId × Nat) → Bool
  ratioToStaked :
    List (Assignment AccountId) → (AccountId → Nat) →
      Except NposError (List (Assignment AccountId))
  toSupports :
    List AccountId → List (Assignment AccountId) → Except NposError Supports
  evaluateSupports : Supports → ElectionScore
  onchainElect :
    Nat → List AccountId → List Voter → Except PalletFlowError Supports

/-- The pallet's storage items, plus the external ledger. -/
structure State where
  currentPhase : Phase
  round : Nat
  snapshotTargets : Option (List AccountId)
  snapshotVoters : Option (List Voter)
  desiredTargets : Nat
  signedSubmissions : List SignedSubmission
  queuedSolution : Option ReadySolution
  ledger : Ledger

/-! ## The signed submission queue -/

/-- Perbill truncating multiplication (`Perbill * Balance`). -/
def mulPerbill (p x : Nat) : Nat := p * x / 1000000000

/-- `Module::deposit_for`: base deposit plus per-byte and per-weight parts. -/
def deposit_for (cfg : Config) (solution : RawSolution) : Balance :=
  let encoded_len := cfg.encodedLen solution
  let feasibility_weight := cfg.feasibilityWeight
  let len_deposit := cfg.signedDepositByte * encoded_len
  let weight_deposit := cfg.signedDepositWeight * feasibility_weight
  cfg.signedDepositBase + len_deposit + weight_deposit

/-- `Module::reward_for`: base reward plus a factor of the score's first
component. -/
def reward_for (cfg : Config) (solution : RawSolution) : Balance :=
  cfg.signedRewardBase + mulPerbill cfg.signedRewardFactor solution.score.s0

/-- The `queue.iter().enumerate().rev().find_map(..)` scan of
`insert_submission`: the index, **plus one**, of the highest-indexed (best)
entry that `score` improves on by the threshold, if any. -/
def find_insert_at (eps : Nat) (score : ElectionScore) :
    List SignedSubmission → Option Nat
  | [] => none
  | x :: xs =>
    match find_insert_at eps score xs with
    | some j => some (j + 1)
    | none => if is_score_better score x.solution.score eps then some 1 else none

/-- `Module::insert_submission`: find the insertion point from best to
worst, reject immediately (no mutation) when it is the front of an
already-full queue, otherwise build the submission (with its deposit and
reward), insert it, and drop the front (worst) entry if the queue now
exceeds `MaxSignedSubmissions`.  Returns the updated queue together with
the source's `Option<usize>` outcome (the final index of the inserted
entry). -/
def insert_submission (cfg : Config) (who : AccountId)
    (queue : List SignedSubmission) (solution : RawSolution) :
    List SignedSubmission × Option Nat :=
  let at_ := (find_insert_at cfg.solutionImprovementThreshold solution.score queue).getD 0
  if at_ = 0 ∧ cfg.maxSignedSubmissions ≤ queue.length then (queue, none)
  else
    let reward := reward_for cfg solution
    let deposit := deposit_for cfg solution
    let submission : SignedSubmission :=
      { who := who, deposit := deposit, reward := reward, solution := solution }
    let q := queue.insertIdx at_ submission
    if cfg.maxSignedSubmissions < q.length then (q.eraseIdx 0, some (at_ - 1))
    else (q, some at_)

/-- `Call::submit`: origin must be signed; reject outside the signed phase;
try to insert into (an in-memory copy of) the queue; reserve the deposit;
only then persist the new queue.  FRAME does not roll back on error, so the
write order of the source is what guarantees rejected submissions leave the
persisted state untouched. -/
def submit (cfg : Config) (st : State) (origin : Option AccountId)
    (solution : RawSolution) : Except DispatchError Unit × State :=
  match origin with
  | none => (.error .badOrigin, st)
  | some who =>
    if !st.currentPhase.is_signed then (.error .earlySubmission, st)
    else
      let signed_submissions := st.signedSubmissions
      let r := insert_submission cfg who signed_submissions solution
      match r.2 with
      | none => (.error .queueFull, st)
      | some index =>
        let deposit := (r.1.getD index default).deposit
        match st.ledger.reserve who deposit with
        | none => (.error .cannotPayDeposit, st)
        | some ledger =>
          (.ok (), { st with signedSubmissions := r.1, ledger := ledger })

/-! ## Queue invariants (C1) -/

/-- The queue's sort order, ascending by quality (worst at index 0, best at
the end), taken with respect to the `is_score_better` threshold relation: no
entry is an improvement (by the configured threshold) over any entry that
sits above it. -/
def QueueSorted (eps : Nat) (q : List SignedSubmission) : Prop :=
  q.Pairwise fun a b => is_score_better a.solution.score b.solution.score eps = false

theorem find_insert_at_none {eps : Nat} {s : ElectionScore}
    {q : List SignedSubmission} (h : find_insert_at eps s q = none) :
    ∀ y ∈ q, is_score_better s y.solution.score eps = false := by
  induction q with
  | nil => intro y hy; cases hy
  | cons x xs ih =>
    intro y hy
    rw [find_insert_at] at h
    rcases hfx : find_insert_at eps s xs with _ | j
    · rw [hfx] at h
      rcases hy with _ | hy
      · by_cases hb : is_score_better s x.solution.score eps = true
        · simp [hb] at h
        · exact Bool.eq_false_iff.mpr hb
      · exact ih hfx y (by assumption)
    · rw [hfx] at h
      exact absurd h (by simp)

theorem find_insert_at_some_wit {eps : Nat} {s : ElectionScore}
    {q : List SignedSubmission} {a : Nat} (h : find_insert_at eps s q = some a) :
    ∃ w ∈ q, is_score_better s w.solution.score eps = true := by
  induction q generalizing a with
  | nil => cases h
  | cons x xs ih =>
    rw [find_insert_at] at h
    rcases hfx : find_insert_at eps s xs with _ | j
    · rw [hfx] at h
      by_cases hb : is_score_better s x.solution.score eps = true
      · exact ⟨x, List.mem_cons_self x xs, hb⟩
      · simp [hb] at h
    · rw [hfx] at h
      obtain ⟨w, hw, hbw⟩ := ih hfx
      exact ⟨w, List.mem_cons_of_mem x hw, hbw⟩

/-- The insertion point found by `find_insert_at` splits the queue so that
the new score improves on nothing at or above the split, everything below
the split is no improvement over the new score, and the split is a valid
index. -/
theorem find_insert_at_split {eps : Nat} {s : ElectionScore}
    {q : List SignedSubmission}
    (hsorted : QueueSorted eps q) :
    (∀ y ∈ q.drop ((find_insert_at eps s q).getD 0),
        is_score_better s y.solution.score eps = false) ∧
    (∀ y ∈ q.take ((find_insert_at eps s q).getD 0),
        is_score_better y.solution.score s eps = false) ∧
    (find_insert_at eps s q).getD 0 ≤ q.length := by
  induction q with
  | nil =>
    exact ⟨fun y hy => absurd hy (List.not_mem_nil y),
      fun y hy => absurd hy (List.not_mem_nil y), Nat.le_refl 0⟩
  | cons x xs ih =>
    have hpair := List.pairwise_cons.mp hsorted
    obtain ⟨ih1, ih2, ih3⟩ := ih hpair.2
    rcases hfx : find_insert_at eps s xs with _ | j
    · simp only [hfx, Option.getD_none, List.drop_zero, List.take_zero] at ih1 ih2 ih3
      by_cases hb : is_score_better s x.solution.score eps = true
      · simp only [find_insert_at, hfx, hb, if_true, Option.getD_some]
        refine ⟨?_, ?_, Nat.succ_le_succ (Nat.zero_le _)⟩
        · intro y hy
          rw [List.drop_succ_cons, List.drop_zero] at hy
          exact find_insert_at_none hfx y hy
        · intro y hy
          rw [List.take_succ_cons, List.take_zero, List.mem_cons] at hy
          rcases hy with rfl | hy
          · exact is_score_better_trans_not _ _ _ _ hb
              (is_score_better_irrefl _ eps)
          · exact absurd hy (List.not_mem_nil y)
      · rw [Bool.not_eq_true] at hb
        simp only [find_insert_at, hfx, hb, Bool.false_eq_true, if_false,
          Option.getD_none]
        refine ⟨?_, ?_, Nat.zero_le _⟩
        · intro y hy
          rw [List.drop_zero, List.mem_cons] at hy
          rcases hy with rfl | hy
          · exact hb
          · exact find_insert_at_none hfx y hy
        · intro y hy
          rw [List.take_zero] at hy
          exact absurd hy (List.not_mem_nil y)
    · simp only [hfx, Option.getD_some] at ih1 ih2 ih3
      simp only [find_insert_at, hfx, Option.getD_some]
      refine ⟨?_, ?_, Nat.succ_le_succ ih3⟩
      · intro y hy
        rw [List.drop_succ_cons] at hy
        exact ih1 y hy
      · intro y hy
        rw [List.take_succ_cons, List.mem_cons] at hy
        rcases hy with rfl | hy
        · obtain ⟨w, hw, hbw⟩ := find_insert_at_some_wit hfx
          exact is_score_better_trans_not _ _ _ _ hbw (hpair.1 w hw)
        · exact ih2 y hy

theorem insertIdx_eq_take_cons_drop {α : Type} (n : Nat) (x : α) (l : List α)
    (h : n ≤ l.length) : l.insertIdx n x = l.take n ++ x :: l.drop n := by
  induction l generalizing n with
  | nil =>
    cases n with
    | zero => rfl
    | succ m => cases h
  | cons a as ih =>
    cases n with
    | zero => rfl
    | succ m =>
      simp only [List.insertIdx_succ_cons, List.take_succ_cons, List.drop_succ_cons,
        List.cons_append, List.cons.injEq, true_and]
      exact ih m (Nat.le_of_succ_le_succ h)

/-- C1: after any call to `insert_submission` (any submitter, any solution),
a queue that satisfied the invariants still does: its length is at most
`MaxSignedSubmissions` and it remains sorted ascending (worst at index 0,
best at the end) with respect to the `is_score_better` relation at the
configured improvement threshold. -/
theorem claim_C1_insert_submission_invariants (cfg : Config) (who : AccountId)
    (queue : List SignedSubmission) (solution : RawSolution)
    (hlen : queue.length ≤ cfg.maxSignedSubmissions)
    (hsorted : QueueSorted cfg.solutionImprovementThreshold queue) :
    (insert_submission cfg who queue solution).1.length ≤ cfg.maxSignedSubmissions ∧
      QueueSorted cfg.solutionImprovementThreshold
        (insert_submission cfg who queue solution).1 := by
  obtain ⟨hdrop, htake, hle⟩ :=
    @find_insert_at_split cfg.solutionImprovementThreshold solution.score
      queue hsorted
  set at_ :=
    (find_insert_at cfg.solutionImprovementThreshold solution.score queue).getD 0
    with hat
  set sub : SignedSubmission :=
    { who := who, deposit := deposit_for cfg solution,
      reward := reward_for cfg solution, solution := solution } with hsub
  have hins : insert_submission cfg who queue solution =
      if at_ = 0 ∧ cfg.maxSignedSubmissions ≤ queue.length then (queue, none)
      else if cfg.maxSignedSubmissions < (queue.insertIdx at_ sub).length then
        ((queue.insertIdx at_ sub).eraseIdx 0, some (at_ - 1))
      else (queue.insertIdx at_ sub, some at_) := rfl
  rw [hins]
  by_cases h1 : at_ = 0 ∧ cfg.maxSignedSubmissions ≤ queue.length
  · rw [if_pos h1]
    exact ⟨hlen, hsorted⟩
  · rw [if_neg h1]
    have hlen' : (queue.insertIdx at_ sub).length = queue.length + 1 :=
      List.length_insertIdx at_ queue hle
    have hpair' : QueueSorted cfg.solutionImprovementThreshold
        (queue.insertIdx at_ sub) := by
      rw [QueueSorted, insertIdx_eq_take_cons_drop at_ sub queue hle]
      have hq : QueueSorted cfg.solutionImprovementThreshold
          (queue.take at_ ++ queue.drop at_) := by
        rw [List.take_append_drop]
        exact hsorted
      rw [QueueSorted, List.pairwise_append] at hq
      rw [List.pairwise_append]
      refine ⟨hq.1, List.pairwise_cons.mpr ⟨hdrop, hq.2.1⟩, ?_⟩
      intro a ha b hb
      rw [List.mem_cons] at hb
      rcases hb with rfl | hb
      · exact htake a ha
      · exact hq.2.2 a ha b hb
    by_cases h2 : cfg.maxSignedSubmissions < (queue.insertIdx at_ sub).length
    · rw [if_pos h2]
      refine ⟨?_, hpair'.sublist (List.eraseIdx_sublist _ 0)⟩
      show ((queue.insertIdx at_ sub).eraseIdx 0).length ≤ _
      rw [List.length_eraseIdx, hlen']
      rw [hlen'] at h2
      rw [if_pos (Nat.succ_pos _)]
      omega
    · rw [if_neg h2]
      refine ⟨?_, hpair'⟩
      show (queue.insertIdx at_ sub).length ≤ _
      omega

/-- The insertion point never exceeds the queue length (no sortedness
needed). -/
theorem find_insert_at_getD_le (eps : Nat) (s : ElectionScore)
    (q : List SignedSubmission) : (find_insert_at eps s q).getD 0 ≤ q.length := by
  induction q with
  | nil => exact Nat.le_refl 0
  | cons x xs ih =>
    rcases hfx : find_insert_at eps s xs with _ | j
    · by_cases hb : is_score_better s x.solution.score eps = true
      · simp only [find_insert_at, hfx, hb, if_true, Option.getD_some]
        exact Nat.succ_le_succ (Nat.zero_le _)
      · rw [Bool.not_eq_true] at hb
        simp only [find_insert_at, hfx, hb, Bool.false_eq_true, if_false,
          Option.getD_none]
        exact Nat.zero_le _
    · rw [hfx, Option.getD_some] at ih
      simp only [find_insert_at, hfx, Option.getD_some]
      exact Nat.succ_le_succ ih

/-! ## Concrete fixtures for the witnesses (mirroring the mock's constants:
base deposit 5, base reward 7, zero byte/weight deposit rates, zero
improvement threshold, signed phase 10, unsigned phase 5). -/

/-- A concrete configuration for witnesses. -/
def cfg0 : Config where
  maxSignedSubmissions := 5
  solutionImprovementThreshold := 0
  signedPhase := 10
  unsignedPhase := 5
  signedRewardBase := 7
  signedRewardFactor := 0
  signedDepositBase := 5
  signedDepositByte := 0
  signedDepositWeight := 0
  feasibilityWeight := 0
  submitUnsignedWeight := 0
  encodedLen := fun _ => 0
  nextElectionPrediction := fun _ => 15
  dpTargets := [10, 20]
  dpVoters := [⟨1, 10, [10]⟩, ⟨2, 20, [20]⟩]
  dpDesired := 2
  dataProviderCheck := fun _ _ => true
  ratioToStaked := fun a _ => .ok a
  toSupports := fun _ _ => .ok []
  evaluateSupports := fun _ => ⟨0, 0, 0⟩
  onchainElect := fun _ _ _ => .error .onChainFallback

/-- `cfg0` with queue capacity 1. -/
def cfg1 : Config := { cfg0 with maxSignedSubmissions := 1 }

/-- Everyone starts with 100 free, 0 reserved. -/
def ledger0 : Ledger := ⟨fun _ => 100, fun _ => 0⟩

/-- Account 1 has already paid its deposit of 5. -/
def ledgerA : Ledger :=
  ⟨fun a => if a = 1 then 95 else 100, fun a => if a = 1 then 5 else 0⟩

/-- A raw solution with first score component `n` (empty compact). -/
def solN (n : Nat) : RawSolution := ⟨TestCompact.default16, ⟨n, 0, 0⟩⟩

/-- Account 1's queued submission with score 5 (deposit 5, reward 7). -/
def subA : SignedSubmission := ⟨1, 5, 7, solN 5⟩

/-- **C1** witness: the queue invariants instantiated at the singleton queue
`[subA]` under `cfg0`, inserting a better solution (score 9). -/
theorem claim_C1_witness :
    ([subA] : List SignedSubmission).length ≤ cfg0.maxSignedSubmissions ∧
    QueueSorted cfg0.solutionImprovementThreshold [subA] ∧
    ((insert_submission cfg0 2 [subA] (solN 9)).1.length ≤
        cfg0.maxSignedSubmissions ∧
      QueueSorted cfg0.solutionImprovementThreshold
        (insert_submission cfg0 2 [subA] (solN 9)).1) :=
  ⟨by decide, by simp [QueueSorted],
    claim_C1_insert_submission_invariants cfg0 2 [subA] (solN 9)
      (by decide) (by simp [QueueSorted])⟩

/-- A state in the `Off` phase. -/
def st_off : State where
  currentPhase := .off
  round := 0
  snapshotTargets := none
  snapshotVoters := none
  desiredTargets := 0
  signedSubmissions := []
  queuedSolution := none
  ledger := ledger0

/-- A signed-phase state whose capacity-1 queue is full with `subA`. -/
def st_full1 : State where
  currentPhase := .signed
  round := 1
  snapshotTargets := some [10, 20]
  snapshotVoters := some [⟨1, 10, [10]⟩, ⟨2, 20, [20]⟩]
  desiredTargets := 2
  signedSubmissions := [subA]
  queuedSolution := none
  ledger := ledgerA

/-- A signed-phase state with an empty queue and a pauper ledger. -/
def st_poor : State where
  currentPhase := .signed
  round := 1
  snapshotTargets := some [10, 20]
  snapshotVoters := some [⟨1, 10, [10]⟩, ⟨2, 20, [20]⟩]
  desiredTargets := 2
  signedSubmissions := []
  queuedSolution := none
  ledger := ⟨fun _ => 2, fun _ => 0⟩

/-! ## C2: rejected market submissions mutate nothing -/

/-- C2: every rejected `submit` — wrong phase, insertion at index 0 of a
full queue (which includes an equal-score submission, since an equal score
is never an improvement), or deposit-reservation failure — returns an error
and leaves the persisted state (queue, ledger, everything) exactly as it
was: no deposit is reserved and the stored queue is unchanged. -/
theorem claim_C2_rejected_submit_no_mutation :
    (∀ (cfg : Config) (st : State) (origin : Option AccountId)
        (solution : RawSolution) (e : DispatchError),
        (submit cfg st origin solution).1 = .error e →
        (submit cfg st origin solution).2 = st) ∧
    (∀ (cfg : Config) (st : State) (who : AccountId) (solution : RawSolution),
        st.currentPhase.is_signed = false →
        submit cfg st (some who) solution = (.error .earlySubmission, st)) ∧
    (∀ (cfg : Config) (st : State) (who : AccountId) (solution : RawSolution),
        st.currentPhase.is_signed = true →
        (insert_submission cfg who st.signedSubmissions solution).2 = none →
        submit cfg st (some who) solution = (.error .queueFull, st)) ∧
    (∀ (cfg : Config) (st : State) (who : AccountId) (solution : RawSolution)
        (i : Nat),
        st.currentPhase.is_signed = true →
        (insert_submission cfg who st.signedSubmissions solution).2 = some i →
        st.ledger.reserve who
          (((insert_submission cfg who st.signedSubmissions solution).1.getD i
            default).deposit) = none →
        submit cfg st (some who) solution = (.error .cannotPayDeposit, st)) ∧
    (∀ (s : ElectionScore) (eps : Nat), is_score_better s s eps = false) := by
  refine ⟨?_, ?_, ?_, ?_, fun s eps => is_score_better_irrefl s eps⟩
  · intro cfg st origin solution e h
    match origin with
    | none => rfl
    | some who =>
      by_cases hp : st.currentPhase.is_signed
      · rcases hin : (insert_submission cfg who st.signedSubmissions solution).2
          with _ | i
        · simp only [submit, hp, Bool.not_true, Bool.false_eq_true, if_false, hin]
        · rcases hres : st.ledger.reserve who
              (((insert_submission cfg who st.signedSubmissions solution).1.getD i
                default).deposit) with _ | led
          · simp only [submit, hp, Bool.not_true, Bool.false_eq_true, if_false,
              hin, hres]
          · exfalso
            simp only [submit, hp, Bool.not_true, Bool.false_eq_true, if_false,
              hin, hres] at h
            cases h
      · rw [Bool.not_eq_true] at hp
        simp only [submit, hp, Bool.not_false, if_true]
  · intro cfg st who solution hp
    simp only [submit, hp, Bool.not_false, if_true]
  · intro cfg st who solution hp hin
    simp only [submit, hp, Bool.not_true, Bool.false_eq_true, if_false, hin]
  · intro cfg st who solution i hp hin hres
    simp only [submit, hp, Bool.not_true, Bool.false_eq_true, if_false, hin, hres]

/-- Witness for C2: the three rejection branches and the equal-score fact at
concrete inputs (wrong phase; an equal-score submission to a full
capacity-1 queue; a submitter who cannot pay the deposit). -/
theorem claim_C2_witness :
    (submit cfg0 st_off (some 99) (solN 5) = (.error .earlySubmission, st_off)) ∧
    (submit cfg1 st_full1 (some 2) (solN 5) = (.error .queueFull, st_full1)) ∧
    (submit cfg0 st_poor (some 2) (solN 5) = (.error .cannotPayDeposit, st_poor)) ∧
    is_score_better ⟨5, 0, 0⟩ ⟨5, 0, 0⟩ 0 = false :=
  ⟨claim_C2_rejected_submit_no_mutation.2.1 cfg0 st_off 99 (solN 5) rfl,
   claim_C2_rejected_submit_no_mutation.2.2.1 cfg1 st_full1 2 (solN 5) rfl rfl,
   claim_C2_rejected_submit_no_mutation.2.2.2.1 cfg0 st_poor 2 (solN 5) 0 rfl rfl rfl,
   claim_C2_rejected_submit_no_mutation.2.2.2.2 ⟨5, 0, 0⟩ 0⟩

/-! ## C3: eviction of the worst entry does not refund its deposit -/

/-- C3 counterexample: with capacity 1 and account 1's submission (score 5,
deposit 5 reserved) queued, account 2 submits score 20.  The submission is
accepted and account 1's entry is evicted (the queue afterwards holds only
account 2's entry) — but account 1's deposit is **not** refunded: its
reserved balance is still 5 and its free balance still 95, refuting the
claim that an evicted entry's deposit is unreserved in full. -/
theorem claim_C3_counterexample :
    (submit cfg1 st_full1 (some 2) (solN 20)).1 = .ok () ∧
    (submit cfg1 st_full1 (some 2) (solN 20)).2.signedSubmissions =
      [⟨2, 5, 7, solN 20⟩] ∧
    st_full1.ledger.reserved 1 = 5 ∧ st_full1.ledger.free 1 = 95 ∧
    (submit cfg1 st_full1 (some 2) (solN 20)).2.ledger.reserved 1 = 5 ∧
    (submit cfg1 st_full1 (some 2) (solN 20)).2.ledger.free 1 = 95 :=
  ⟨rfl, by decide, rfl, rfl, rfl, rfl⟩

/-- C3 (amended): when an accepted submission makes the queue exceed
capacity, exactly the single worst entry (index 0) is dropped, keeping the
length at the old length; but the evicted entry's reserved deposit is not
unreserved — a successful `submit` changes no balance of any account other
than the new submitter (whose deposit gets reserved). -/
theorem claim_C3_evict_without_refund :
    (∀ (cfg : Config) (who : AccountId) (queue : List SignedSubmission)
        (solution : RawSolution),
        ¬((find_insert_at cfg.solutionImprovementThreshold solution.score
            queue).getD 0 = 0 ∧ cfg.maxSignedSubmissions ≤ queue.length) →
        cfg.maxSignedSubmissions < queue.length + 1 →
        (insert_submission cfg who queue solution).1 =
          (queue.insertIdx
            ((find_insert_at cfg.solutionImprovementThreshold solution.score
              queue).getD 0)
            ⟨who, deposit_for cfg solution, reward_for cfg solution, solution⟩).drop
            1 ∧
        (insert_submission cfg who queue solution).1.length = queue.length) ∧
    (∀ (cfg : Config) (st : State) (who : AccountId) (solution : RawSolution)
        (st' : State),
        submit cfg st (some who) solution = (.ok (), st') →
        ∀ a, a ≠ who →
          st'.ledger.reserved a = st.ledger.reserved a ∧
          st'.ledger.free a = st.ledger.free a) := by
  constructor
  · intro cfg who queue solution h1 h2
    set at_ :=
      (find_insert_at cfg.solutionImprovementThreshold solution.score queue).getD 0
      with hat
    set sub : SignedSubmission :=
      { who := who, deposit := deposit_for cfg solution,
        reward := reward_for cfg solution, solution := solution } with hsub
    have hle : at_ ≤ queue.length := find_insert_at_getD_le _ _ _
    have hlen' : (queue.insertIdx at_ sub).length = queue.length + 1 :=
      List.length_insertIdx at_ queue hle
    have hins : insert_submission cfg who queue solution =
        if at_ = 0 ∧ cfg.maxSignedSubmissions ≤ queue.length then (queue, none)
        else if cfg.maxSignedSubmissions < (queue.insertIdx at_ sub).length then
          ((queue.insertIdx at_ sub).eraseIdx 0, some (at_ - 1))
        else (queue.insertIdx at_ sub, some at_) := rfl
    rw [hins, if_neg h1, if_pos (by omega)]
    have herase : (queue.insertIdx at_ sub).eraseIdx 0 =
        (queue.insertIdx at_ sub).drop 1 := by
      cases queue.insertIdx at_ sub with
      | nil => rfl
      | cons a as => rfl
    refine ⟨herase, ?_⟩
    show ((queue.insertIdx at_ sub).eraseIdx 0).length = queue.length
    rw [herase, List.length_drop, hlen']
    omega
  · intro cfg st who solution st' h a ha
    by_cases hp : st.currentPhase.is_signed
    · rcases hin : (insert_submission cfg who st.signedSubmissions solution).2
        with _ | i
      · simp only [submit, hp, Bool.not_true, Bool.false_eq_true, if_false, hin,
          Prod.mk.injEq] at h
        exact absurd h.1 (by simp)
      · rcases hres : st.ledger.reserve who
            (((insert_submission cfg who st.signedSubmissions solution).1.getD i
              default).deposit) with _ | led
        · simp only [submit, hp, Bool.not_true, Bool.false_eq_true, if_false,
            hin, hres, Prod.mk.injEq] at h
          exact absurd h.1 (by simp)
        · simp only [submit, hp, Bool.not_true, Bool.false_eq_true, if_false,
            hin, hres, Prod.mk.injEq] at h
          have hled : st'.ledger = led := by rw [← h.2]
          rw [Ledger.reserve] at hres
          by_cases hfree : st.ledger.free who <
              ((insert_submission cfg who st.signedSubmissions solution).1.getD i
                default).deposit
          · rw [if_pos hfree] at hres; cases hres
          · rw [if_neg hfree] at hres
            have := Option.some.inj hres
            rw [hled, ← this]
            exact ⟨by simp [ha], by simp [ha]⟩
    · rw [Bool.not_eq_true] at hp
      simp only [submit, hp, Bool.not_false, if_true, Prod.mk.injEq] at h
      exact absurd h.1 (by simp)

/-- Witness for C3's amended theorem at the counterexample input: the
eviction shape of `insert_submission` on the full capacity-1 queue and the
untouched balances of the evicted account 1. -/
theorem claim_C3_evict_without_refund_witness :
    ((insert_submission cfg1 2 [subA] (solN 20)).1 =
        ([subA].insertIdx 1 ⟨2, 5, 7, solN 20⟩).drop 1 ∧
      (insert_submission cfg1 2 [subA] (solN 20)).1.length = 1) ∧
    ((submit cfg1 st_full1 (some 2) (solN 20)).2.ledger.reserved 1 =
        st_full1.ledger.reserved 1 ∧
      (submit cfg1 st_full1 (some 2) (solN 20)).2.ledger.free 1 =
        st_full1.ledger.free 1) := by
  constructor
  · have h := claim_C3_evict_without_refund.1 cfg1 2 [subA] (solN 20)
      (by decide) (by decide)
    exact ⟨h.1, h.2⟩
  · exact claim_C3_evict_without_refund.2 cfg1 st_full1 2 (solN 20)
      (submit cfg1 st_full1 (some 2) (solN 20)).2 rfl 1 (by decide)

/-! ## The feasibility checker -/

/-- The per-assignment vote check of `feasibility_check` step 3: the voter
must exist in the snapshot (`InvalidVoter`), the referenced targets must be
a subset of its recorded nominations and the data provider's per-voter
predicate must hold (`InvalidVote`). -/
def checkAssignmentVotes (cfg : Config) (snapshot_voters : List Voter)
    (a : Assignment AccountId) : Except FeasibilityError Unit :=
  match snapshot_voters.find? (fun v => v.who = a.who) with
  | none => .error .invalidVoter
  | some v =>
    if a.distribution.all (fun tp => v.votes.contains tp.1) &&
        cfg.dataProviderCheck a.who a.distribution then .ok ()
    else .error .invalidVote

/-- The claimed-score-independent prefix of `Module::feasibility_check`
(everything up to and including the recomputation of `known_score`; the
source consumes `solution.score` only in the final equality test, so the
function factors through this core):

0. unique-winner count against `DesiredTargets`, else `WrongWinnerCount`;
1. snapshot presence;
2. winner index resolution (`InvalidWinner`), compact decoding
   (`into_assignment`, errors wrapped as `NposElectionError`);
3. per-assignment vote checks;
4. ratio-to-staked conversion and `to_supports` (external, via `Config`);
5. score recomputation `supports.evaluate()` (external, via `Config`). -/
def feasibility_core (cfg : Config) (st : State) (compact : TestCompact) :
    Except FeasibilityError (Supports × ElectionScore) :=
  let winners_idx := compact.unique_targets
  if winners_idx.length = st.desiredTargets then
    match st.snapshotVoters with
    | none => .error .snapshotUnavailable
    | some snapshot_voters =>
      match st.snapshotTargets with
      | none => .error .snapshotUnavailable
      | some snapshot_targets =>
        let voter_at := fun i => (snapshot_voters[i]?).map (·.who)
        let target_at := fun i => snapshot_targets[i]?
        match winners_idx.mapM
            (fun i => (target_at i).elim (Except.error .invalidWinner) .ok) with
        | .error e => .error e
        | .ok winners =>
          match compact.into_assignment voter_at target_at with
          | .error e => .error (.nposElectionError e)
          | .ok assignments =>
            match assignments.forM (checkAssignmentVotes cfg snapshot_voters) with
            | .error e => .error e
            | .ok _ =>
              let stake_of := fun who =>
                ((snapshot_voters.find? (fun v => v.who = who)).map (·.stake)).getD 0
              match cfg.ratioToStaked assignments stake_of with
              | .error e => .error (.nposElectionError e)
              | .ok staked =>
                match cfg.toSupports winners staked with
                | .error e => .error (.nposElectionError e)
                | .ok supports => .ok (supports, cfg.evaluateSupports supports)
  else .error .wrongWinnerCount

/-- `Module::feasibility_check`: the core checks followed by the exact
(no-tolerance) comparison of the recomputed score against the claimed one;
on success the `ReadySolution` carries the supports, the score and the
computing origin. -/
def feasibility_check (cfg : Config) (st : State) (solution : RawSolution)
    (compute : ElectionCompute) : Except FeasibilityError ReadySolution :=
  match feasibility_core cfg st solution.compact with
  | .error e => .error e
  | .ok (supports, known_score) =>
    if known_score = solution.score then
      .ok ⟨supports, solution.score, compute⟩
    else .error .invalidScore

/-! ## Draining the queue (C4) -/

/-- Refund (unreserve) the deposits of the given entries, front to back. -/
def refundAll (subs : List SignedSubmission) (l : Ledger) : Ledger :=
  subs.foldl (fun led s => led.unreserve s.who s.deposit) l

/-- Slash the deposits of the given entries, front to back. -/
def slashAll (subs : List SignedSubmission) (l : Ledger) : Ledger :=
  subs.foldl (fun led s => led.slashReserved s.who s.deposit) l

/-- The `while let Some(best) = all_submission.pop()` loop of
`finalize_signed_phase`, on the processing-order (reversed, best-first)
list.  A passing entry stores its `ReadySolution`, gets its deposit
unreserved and its reward minted, and stops the loop; the entries still
unpopped (the original-order prefix, here `remaining.reverse`) are then
refunded front to back without being checked.  A failing entry is slashed
and the loop continues. -/
def finalizeLoop (cfg : Config) (rest : List SignedSubmission) (st : State) :
    Bool × State :=
  match rest with
  | [] => (false, st)
  | best :: remaining =>
    match feasibility_check cfg st best.solution .signed with
    | .ok ready =>
      let st1 := { st with queuedSolution := some ready }
      let led := st1.ledger.unreserve best.who best.deposit
      let led := led.depositCreating best.who best.reward
      (true, { st1 with ledger := refundAll remaining.reverse led })
    | .error _ =>
      finalizeLoop cfg remaining
        { st with ledger := st.ledger.slashReserved best.who best.deposit }

/-- `Module::finalize_signed_phase`: `take` (empty) the stored queue and
process it best-first; returns whether a feasible solution was found. -/
def finalize_signed_phase (cfg : Config) (st : State) : Bool × State :=
  let all_submission := st.signedSubmissions
  finalizeLoop cfg all_submission.reverse { st with signedSubmissions := [] }

theorem dropWhile_head_false {α : Type} (p : α → Bool) (l : List α)
    {a : α} {as : List α} (h : l.dropWhile p = a :: as) : p a = false := by
  induction l with
  | nil => cases h
  | cons x xs ih =>
    rw [List.dropWhile_cons] at h
    by_cases hx : p x = true
    · rw [if_pos hx] at h
      exact ih h
    · rw [if_neg hx] at h
      cases h
      exact Bool.not_eq_true _ |>.mp hx

theorem mem_of_dropWhile_eq_cons {α : Type} (p : α → Bool) (l : List α)
    {a : α} {as : List α} (h : l.dropWhile p = a :: as) : a ∈ l := by
  induction l with
  | nil => cases h
  | cons x xs ih =>
    rw [List.dropWhile_cons] at h
    by_cases hx : p x = true
    · rw [if_pos hx] at h
      exact List.mem_cons_of_mem x (ih h)
    · rw [if_neg hx] at h
      cases h
      exact List.mem_cons_self _ _

/-- Characterisation of the processing loop by `takeWhile`/`dropWhile` on
the processing-order list. -/
theorem finalizeLoop_spec (cfg : Config) (rev : List SignedSubmission)
    (st : State) :
    finalizeLoop cfg rev st =
      match rev.dropWhile
          (fun s => !(feasibility_check cfg st s.solution .signed).isOk) with
      | [] =>
        (false,
          { st with
              ledger := slashAll (rev.takeWhile
                (fun s => !(feasibility_check cfg st s.solution .signed).isOk))
                st.ledger })
      | w :: remaining =>
        (true,
          { st with
              queuedSolution := (feasibility_check cfg st w.solution .signed).toOption,
              ledger :=
                refundAll remaining.reverse
                  (((slashAll (rev.takeWhile
                      (fun s => !(feasibility_check cfg st s.solution .signed).isOk))
                      st.ledger).unreserve w.who w.deposit).depositCreating
                    w.who w.reward) }) := by
  induction rev generalizing st with
  | nil => rfl
  | cons best remaining ih =>
    rcases hcheck : feasibility_check cfg st best.solution .signed with e | ready
    · have hck : (!(feasibility_check cfg st best.solution .signed).isOk) = true := by
        rw [hcheck]; rfl
      rw [List.dropWhile_cons, List.takeWhile_cons, if_pos hck, if_pos hck]
      have hstep : finalizeLoop cfg (best :: remaining) st =
          finalizeLoop cfg remaining
            { st with ledger := st.ledger.slashReserved best.who best.deposit } := by
        simp only [finalizeLoop, hcheck]
      rw [hstep, ih]
      rfl
    · have hck : (!(feasibility_check cfg st best.solution .signed).isOk) = false := by
        rw [hcheck]; rfl
      rw [List.dropWhile_cons, List.takeWhile_cons, if_neg (by simp [hck]),
        if_neg (by simp [hck])]
      have hstep : finalizeLoop cfg (best :: remaining) st =
          (true,
            { st with
                queuedSolution := some ready,
                ledger :=
                  refundAll remaining.reverse
                    ((st.ledger.unreserve best.who best.deposit).depositCreating
                      best.who best.reward) }) := by
        simp only [finalizeLoop, hcheck]
      rw [hstep]
      split
      next heq => exact absurd heq (by simp)
      next w r1 heq =>
        injection heq with h1 h2
        subst h1
        subst h2
        rw [hcheck]
        rfl

/-- C4: `finalize_signed_phase` pops entries best-first (from the end of
the stored queue, which it empties).  Writing the processing order as
`failed ++ (w :: remaining)` where `failed` is the maximal prefix failing
the feasibility check: every failed entry is slashed for its full deposit;
the first passing entry `w` is stored as the round's accepted
`QueuedSolution`, has its deposit unreserved in full and its reward minted,
and processing stops; the `remaining` unprocessed entries are refunded in
full without being feasibility-checked; if no entry passes, all are slashed
and the previously queued solution is untouched.  The returned flag is
`true` iff some entry passes the check. -/
theorem claim_C4_finalize_signed_phase_behavior (cfg : Config) (st : State) :
    (finalize_signed_phase cfg st).1 =
      st.signedSubmissions.any
        (fun s => (feasibility_check cfg st s.solution .signed).isOk) ∧
    (finalize_signed_phase cfg st).2.signedSubmissions = [] ∧
    (match st.signedSubmissions.reverse.dropWhile
        (fun s => !(feasibility_check cfg st s.solution .signed).isOk) with
     | [] =>
        (finalize_signed_phase cfg st).2.queuedSolution = st.queuedSolution ∧
        (finalize_signed_phase cfg st).2.ledger =
          slashAll (st.signedSubmissions.reverse.takeWhile
            (fun s => !(feasibility_check cfg st s.solution .signed).isOk))
            st.ledger
     | w :: remaining =>
        (finalize_signed_phase cfg st).2.queuedSolution =
          (feasibility_check cfg st w.solution .signed).toOption ∧
        (finalize_signed_phase cfg st).2.ledger =
          refundAll remaining.reverse
            (((slashAll (st.signedSubmissions.reverse.takeWhile
                (fun s => !(feasibility_check cfg st s.solution .signed).isOk))
                st.ledger).unreserve w.who w.deposit).depositCreating
              w.who w.reward)) := by
  have hmain : finalize_signed_phase cfg st =
      finalizeLoop cfg st.signedSubmissions.reverse
        { st with signedSubmissions := [] } := rfl
  have hfeq : ∀ (x : RawSolution),
      feasibility_check cfg { st with signedSubmissions := ([] : List SignedSubmission) }
          x .signed =
        feasibility_check cfg st x .signed := fun _ => rfl
  rw [hmain, finalizeLoop_spec]
  simp only [hfeq]
  rcases hdrop : st.signedSubmissions.reverse.dropWhile
      (fun s => !(feasibility_check cfg st s.solution .signed).isOk)
    with _ | ⟨w, remaining⟩
  · have hall : ∀ s ∈ st.signedSubmissions,
        (feasibility_check cfg st s.solution .signed).isOk = false := by
      intro s hs
      have := List.dropWhile_eq_nil_iff.mp hdrop s (List.mem_reverse.mpr hs)
      simpa using this
    have hany : st.signedSubmissions.any
        (fun s => (feasibility_check cfg st s.solution .signed).isOk) = false := by
      rw [List.any_eq_false]
      intro s hs
      simp [hall s hs]
    rw [hdrop]
    exact ⟨by rw [hany], rfl, rfl, rfl⟩
  · have hw : (feasibility_check cfg st w.solution .signed).isOk = true := by
      have h := dropWhile_head_false _ _ hdrop
      simpa using h
    have hmem : w ∈ st.signedSubmissions :=
      List.mem_reverse.mp (mem_of_dropWhile_eq_cons _ _ hdrop)
    have hany : st.signedSubmissions.any
        (fun s => (feasibility_check cfg st s.solution .signed).isOk) = true :=
      List.any_eq_true.mpr ⟨w, hmem, hw⟩
    rw [hdrop]
    exact ⟨by rw [hany], rfl, rfl, rfl⟩

/-! ## The phase controller (C5) -/

/-- `Module::start_signed_phase`: freeze the data provider's targets,
voters and desired winner count into the snapshot storage items. -/
def start_signed_phase (cfg : Config) (st : State) : State :=
  { st with
      snapshotTargets := some cfg.dpTargets,
      snapshotVoters := some cfg.dpVoters,
      desiredTargets := cfg.dpDesired }

/-- `on_initialize`: with `remaining = max(next_election_prediction(now), now) - now`,
`Off → Signed` (incrementing the round and capturing the snapshot) when
`remaining ≤ SignedPhase + UnsignedPhase` and `remaining > UnsignedPhase`;
`Signed → Unsigned((!found, now))` (draining the queue) when
`remaining ≤ UnsignedPhase` and `remaining > 0`; otherwise no change. -/
def on_initialize (cfg : Config) (st : State) (now : Nat) : State :=
  let next_election := max (cfg.nextElectionPrediction now) now
  let signed_deadline := cfg.signedPhase + cfg.unsignedPhase
  let unsigned_deadline := cfg.unsignedPhase
  let remaining := next_election - now
  match st.currentPhase with
  | .off =>
    if remaining ≤ signed_deadline ∧ remaining > unsigned_deadline then
      start_signed_phase cfg
        { st with currentPhase := .signed, round := st.round + 1 }
    else st
  | .signed =>
    if remaining ≤ unsigned_deadline ∧ remaining > 0 then
      let r := finalize_signed_phase cfg st
      { r.2 with currentPhase := .unsigned (!r.1) now }
    else st
  | _ => st

/-- C5: the block-tick transitions of `on_initialize`, with
`remaining = next-election-prediction − now`: from `Off`, when
`remaining ≤ SignedPhase + UnsignedPhase` and `remaining > UnsignedPhase`,
the phase becomes `Signed`, the round counter increments and the snapshot
(voters, targets, desired count) is captured; from `Signed`, when
`remaining ≤ UnsignedPhase` and `remaining > 0`, the queue is drained by
`finalize_signed_phase` and the phase becomes `Unsigned` with the open flag
the negation of whether a solution was found; in every other case the state
is unchanged. -/
theorem claim_C5_on_initialize_transitions (cfg : Config) (st : State)
    (now : Nat) :
    (st.currentPhase = .off →
      max (cfg.nextElectionPrediction now) now - now ≤
        cfg.signedPhase + cfg.unsignedPhase →
      max (cfg.nextElectionPrediction now) now - now > cfg.unsignedPhase →
      on_initialize cfg st now =
        { st with
            currentPhase := .signed,
            round := st.round + 1,
            snapshotTargets := some cfg.dpTargets,
            snapshotVoters := some cfg.dpVoters,
            desiredTargets := cfg.dpDesired }) ∧
    (st.currentPhase = .off →
      ¬(max (cfg.nextElectionPrediction now) now - now ≤
          cfg.signedPhase + cfg.unsignedPhase ∧
        max (cfg.nextElectionPrediction now) now - now > cfg.unsignedPhase) →
      on_initialize cfg st now = st) ∧
    (st.currentPhase = .signed →
      max (cfg.nextElectionPrediction now) now - now ≤ cfg.unsignedPhase →
      max (cfg.nextElectionPrediction now) now - now > 0 →
      on_initialize cfg st now =
        { (finalize_signed_phase cfg st).2 with
            currentPhase := .unsigned (!(finalize_signed_phase cfg st).1) now }) ∧
    (st.currentPhase = .signed →
      ¬(max (cfg.nextElectionPrediction now) now - now ≤ cfg.unsignedPhase ∧
        max (cfg.nextElectionPrediction now) now - now > 0) →
      on_initialize cfg st now = st) ∧
    (∀ (b : Bool) (bn : Nat), st.currentPhase = .unsigned b bn →
      on_initialize cfg st now = st) := by
  refine ⟨?_, ?_, ?_, ?_, ?_⟩
  · intro hoff h1 h2
    simp only [ on_initialize, hoff]
    rw [if_pos ⟨h1, h2⟩]
    rfl
  · intro hoff hneg
    simp only [ on_initialize, hoff]
    rw [if_neg hneg]
  · intro hsig h1 h2
    simp only [ on_initialize, hsig]
    rw [if_pos ⟨h1, h2⟩]
  · intro hsig hneg
    simp only [ on_initialize, hsig]
    rw [if_neg hneg]
  · intro b bn hu
    simp only [ on_initialize, hu]

/-- An unsigned-open state used by the witnesses. -/
def st_uns : State := { st_off with currentPhase := Phase.unsigned true 10 }

/-- Witness for C5 at the mock's timing (signed phase 10, unsigned phase 5,
next election predicted at tick 15): at tick 5 the phase opens signed with
the snapshot captured; at tick 10 a signed state drains into the unsigned
phase; an unsigned state is left untouched. -/
theorem claim_C5_witness :
    ( on_initialize cfg0 st_off 5 =
      { st_off with
          currentPhase := .signed,
          round := st_off.round + 1,
          snapshotTargets := some cfg0.dpTargets,
          snapshotVoters := some cfg0.dpVoters,
          desiredTargets := cfg0.dpDesired }) ∧
    ( on_initialize cfg0 st_full1 10 =
      { (finalize_signed_phase cfg0 st_full1).2 with
          currentPhase :=
            .unsigned (!(finalize_signed_phase cfg0 st_full1).1) 10 }) ∧
    ( on_initialize cfg0 st_uns 12 = st_uns) :=
  ⟨(claim_C5_on_initialize_transitions cfg0 st_off 5).1 rfl (by decide) (by decide),
   (claim_C5_on_initialize_transitions cfg0 st_full1 10).2.2.1 rfl (by decide)
     (by decide),
   (claim_C5_on_initialize_transitions cfg0 st_uns 12).2.2.2.2 true 10 rfl⟩

/-! ## C6: the feasibility checker's winner-count and exact-score gates -/

/-- C6: `feasibility_check` returns `WrongWinnerCount` whenever the number
of unique targets referenced by the compact differs from the snapshot's
desired winner count (the check is first, so this holds for every claimed
score); and whenever the core checks pass with recomputed score `known`,
the claimed score is compared exactly (no tolerance): any claimed score
other than `known` — in particular one with any single component changed
by 1 — yields `InvalidScore`, while claiming exactly `known` yields the
`ReadySolution` carrying the supports, the score and the computing
origin. -/
theorem claim_C6_feasibility_check_gates (cfg : Config) (st : State)
    (c : TestCompact) (compute : ElectionCompute) :
    (c.unique_targets.length ≠ st.desiredTargets →
      ∀ (s : ElectionScore),
        feasibility_check cfg st ⟨c, s⟩ compute = .error .wrongWinnerCount) ∧
    (∀ (supports : Supports) (known : ElectionScore),
      feasibility_core cfg st c = .ok (supports, known) →
      ∀ (s : ElectionScore),
        (s ≠ known →
          feasibility_check cfg st ⟨c, s⟩ compute = .error .invalidScore) ∧
        (s = known →
          feasibility_check cfg st ⟨c, s⟩ compute =
            .ok ⟨supports, known, compute⟩)) := by
  constructor
  · intro hcount s
    have hcore : feasibility_core cfg st c = .error .wrongWinnerCount := by
      rw [feasibility_core, if_neg hcount]
    simp only [feasibility_check, hcore]
  · intro supports known hcore s
    constructor
    · intro hne
      simp only [feasibility_check, hcore]
      rw [if_neg (fun h => hne h.symm)]
    · intro heq
      subst heq
      simp [feasibility_check, hcore]

/-- A one-voter, one-target snapshot state for the C6/C10 witnesses. -/
def st6 : State where
  currentPhase := .signed
  round := 1
  snapshotTargets := some [20]
  snapshotVoters := some [⟨10, 100, [20]⟩]
  desiredTargets := 1
  signedSubmissions := []
  queuedSolution := none
  ledger := ledger0

/-- A compact voting the single voter (index 0) wholly for the single
target (index 0): one arity-1 entry, all other buckets empty. -/
def c6 : TestCompact :=
  ⟨[⟨0, [], 0⟩] :: List.replicate 15 []⟩

/-- Witness for C6: an empty compact claims 0 winners against a desired
count of 1 and is rejected as `WrongWinnerCount` whatever its claimed
score; `c6` passes the core with recomputed score `(0,0,0)` (under `cfg0`'s
external scoring), so claiming `(1,0,0)` — one component off by 1 — is
`InvalidScore` while claiming `(0,0,0)` is accepted. -/
theorem claim_C6_witness :
    feasibility_check cfg0 st6 ⟨TestCompact.default16, ⟨9, 9, 9⟩⟩ .signed =
      .error .wrongWinnerCount ∧
    feasibility_check cfg0 st6 ⟨c6, ⟨1, 0, 0⟩⟩ .signed = .error .invalidScore ∧
    feasibility_check cfg0 st6 ⟨c6, ⟨0, 0, 0⟩⟩ .signed =
      .ok ⟨[], ⟨0, 0, 0⟩, .signed⟩ :=
  ⟨(claim_C6_feasibility_check_gates cfg0 st6 TestCompact.default16 .signed).1
      (by decide) ⟨9, 9, 9⟩,
   ((claim_C6_feasibility_check_gates cfg0 st6 c6 .signed).2 [] ⟨0, 0, 0⟩
      rfl ⟨1, 0, 0⟩).1 (by decide),
   ((claim_C6_feasibility_check_gates cfg0 st6 c6 .signed).2 [] ⟨0, 0, 0⟩
      rfl ⟨0, 0, 0⟩).2 rfl⟩

/-! ## C9: round settlement (`elect`) -/

/-- `Module::onchain_fallback`: run the external on-chain solver over the
stored snapshot. -/
def onchain_fallback (cfg : Config) (st : State) :
    Except PalletFlowError Supports :=
  match st.snapshotVoters with
  | none => .error .snapshotUnAvailable
  | some voters =>
    match st.snapshotTargets with
    | none => .error .snapshotUnAvailable
    | some targets => cfg.onchainElect st.desiredTargets targets voters

/-- `ElectionProvider::elect`: take the queued solution if any (else the
on-chain fallback); on success set the phase to `Off` and kill the voter
and target snapshots.  The source contains no removal of `QueuedSolution`
(it is read with `get`, not `take`, and never killed). -/
def elect (cfg : Config) (st : State) :
    Except PalletFlowError (Supports × State) :=
  let res : Except PalletFlowError (Supports × ElectionCompute) :=
    match st.queuedSolution with
    | some ready => .ok (ready.supports, ready.compute)
    | none =>
      match onchain_fallback cfg st with
      | .ok supports => .ok (supports, .onChain)
      | .error e => .error e
  match res with
  | .ok (supports, _compute) =>
    .ok (supports,
      { st with
          currentPhase := .off,
          snapshotVoters := none,
          snapshotTargets := none })
  | .error e => .error e

/-- A ready solution sitting in storage at settlement time. -/
def r9 : ReadySolution := ⟨[(10, ⟨100, [(1, 100)]⟩)], ⟨5, 5, 5⟩, .signed⟩

/-- An unsigned-phase state with `r9` queued. -/
def st9 : State where
  currentPhase := .unsigned false 10
  round := 1
  snapshotTargets := some [20]
  snapshotVoters := some [⟨10, 100, [20]⟩]
  desiredTargets := 1
  signedSubmissions := []
  queuedSolution := some r9
  ledger := ledger0

/-- C9 counterexample: a successful `elect` on `st9` sets the phase to
`Off` and removes both snapshots, but the accepted `ReadySolution` is
**not** destroyed — `QueuedSolution` still holds `r9` afterwards, so
round-scoped data survives into the next round, refuting the claim. -/
theorem claim_C9_counterexample :
    elect cfg0 st9 =
      .ok (r9.supports,
        { st9 with
            currentPhase := .off,
            snapshotVoters := none,
            snapshotTargets := none }) ∧
    ({ st9 with
        currentPhase := .off,
        snapshotVoters := none,
        snapshotTargets := none } : State).queuedSolution = some r9 ∧
    some r9 ≠ (none : Option ReadySolution) :=
  ⟨rfl, rfl, by simp⟩

/-- C9 (amended): when `elect` returns successfully the phase becomes
`Off` and the voter and target snapshots are removed — but the accepted
`ReadySolution` is not destroyed: `QueuedSolution` (like the round counter,
desired count, queue and ledger) is left exactly as it was. -/
theorem claim_C9_elect_clears_phase_and_snapshots_only (cfg : Config)
    (st : State) (supports : Supports) (st' : State)
    (h : elect cfg st = .ok (supports, st')) :
    st'.currentPhase = .off ∧ st'.snapshotVoters = none ∧
    st'.snapshotTargets = none ∧ st'.queuedSolution = st.queuedSolution ∧
    st'.round = st.round ∧ st'.desiredTargets = st.desiredTargets ∧
    st'.signedSubmissions = st.signedSubmissions ∧ st'.ledger = st.ledger := by
  rcases hq : st.queuedSolution with _ | ready
  · rcases hf : onchain_fallback cfg st with e | sup
    · exfalso
      simp only [elect, hq, hf] at h
      cases h
    · simp only [elect, hq, hf, Except.ok.injEq, Prod.mk.injEq] at h
      rw [← h.2]
      exact ⟨rfl, rfl, rfl, rfl, rfl, rfl, rfl, rfl⟩
  · simp only [elect, hq, Except.ok.injEq, Prod.mk.injEq] at h
    rw [← h.2]
    exact ⟨rfl, rfl, rfl, rfl, rfl, rfl, rfl, rfl⟩

/-- The state `elect` leaves behind on `st9`. -/
def st9cleared : State :=
  { st9 with
      currentPhase := .off,
      snapshotVoters := none,
      snapshotTargets := none }

/-- Witness for C9's amended theorem at the concrete settlement state. -/
theorem claim_C9_amended_witness :
    st9cleared.currentPhase = .off ∧ st9cleared.snapshotVoters = none ∧
    st9cleared.snapshotTargets = none ∧
    st9cleared.queuedSolution = st9.queuedSolution := by
  have h := claim_C9_elect_clears_phase_and_snapshots_only cfg0 st9 r9.supports
    st9cleared rfl
  exact ⟨h.1, h.2.1, h.2.2.1, h.2.2.2.1⟩

/-! ## C10: infeasible unsigned submissions panic -/

/-- Outcome of `submit_unsigned`: success, a returned dispatch error, or a
panic (the `.expect(..)` aborting the block author's execution). -/
inductive UnsignedOutcome where
  | ok (st : State)
  | err (e : DispatchError) (st : State)
  | panic

/-- `Module::pre_dispatch_checks`: the phase must be unsigned-and-open and
the claimed score must beat the currently queued solution by the
improvement threshold. -/
def pre_dispatch_checks (cfg : Config) (st : State) (solution : RawSolution) :
    Except DispatchError Unit :=
  if !st.currentPhase.is_unsigned_open then .error .earlySubmission
  else if !(match st.queuedSolution with
      | none => true
      | some q =>
        is_score_better solution.score q.score
          cfg.solutionImprovementThreshold) then
    .error .weakSubmission
  else .ok ()

/-- `Call::submit_unsigned`: `ensure_none` (any signed or other origin is
`BadOrigin`), then `pre_dispatch_checks`, then the feasibility check whose
failure is an `.expect(..)` panic — never a returned error; on success the
ready solution is queued. -/
def submit_unsigned (cfg : Config) (st : State) (origin : Option AccountId)
    (solution : RawSolution) : UnsignedOutcome :=
  match origin with
  | some _ => .err .badOrigin st
  | none =>
    match pre_dispatch_checks cfg st solution with
    | .error e => .err e st
    | .ok _ =>
      match feasibility_check cfg st solution .unsigned with
      | .error _ => .panic
      | .ok ready => .ok { st with queuedSolution := some ready }

/-- C10: a raw solution that passes `pre_dispatch_checks` but fails the
feasibility check makes `submit_unsigned` panic (aborting execution)
rather than return an error; consequently `submit_unsigned` never returns
a feasibility error to any caller — its only error returns are the origin
check and the two pre-dispatch errors. -/
theorem claim_C10_submit_unsigned_panics (cfg : Config) (st : State)
    (solution : RawSolution) :
    (pre_dispatch_checks cfg st solution = .ok () →
      ∀ (fe : FeasibilityError),
        feasibility_check cfg st solution .unsigned = .error fe →
        submit_unsigned cfg st none solution = .panic) ∧
    (∀ (origin : Option AccountId) (e : DispatchError) (st' : State),
      submit_unsigned cfg st origin solution = .err e st' →
      e = .badOrigin ∨ e = .earlySubmission ∨ e = .weakSubmission) := by
  constructor
  · intro hpre fe hfe
    simp only [submit_unsigned, hpre, hfe]
  · intro origin e st' h
    match origin with
    | some who =>
      simp only [submit_unsigned] at h
      cases h
      exact Or.inl rfl
    | none =>
      rcases hpre : pre_dispatch_checks cfg st solution with e' | u
      · have he' : e' = .earlySubmission ∨ e' = .weakSubmission := by
          rw [pre_dispatch_checks] at hpre
          by_cases h1 : (!st.currentPhase.is_unsigned_open) = true
          · rw [if_pos h1] at hpre
            cases hpre
            exact Or.inl rfl
          · rw [if_neg h1] at hpre
            by_cases h2 : (!(match st.queuedSolution with
                | none => true
                | some q =>
                  is_score_better solution.score q.score
                    cfg.solutionImprovementThreshold)) = true
            · rw [if_pos h2] at hpre
              cases hpre
              exact Or.inr rfl
            · rw [if_neg h2] at hpre
              cases hpre
        simp only [submit_unsigned, hpre] at h
        cases h
        rcases he' with h' | h'
        · exact Or.inr (Or.inl h')
        · exact Or.inr (Or.inr h')
      · rcases hfe : feasibility_check cfg st solution .unsigned with fe | ready
        · cases u
          simp only [submit_unsigned, hpre, hfe] at h
          cases h
        · cases u
          simp only [submit_unsigned, hpre, hfe] at h
          cases h

/-- An unsigned-open state (same snapshot as `st6`, nothing queued). -/
def st10 : State := { st6 with currentPhase := Phase.unsigned true 10 }

/-- Witness for C10: in `st10` the empty-compact solution passes
pre-dispatch (open phase, nothing queued) but fails feasibility
(`WrongWinnerCount`), and `submit_unsigned` panics. -/
theorem claim_C10_witness :
    pre_dispatch_checks cfg0 st10 (solN 5) = .ok () ∧
    feasibility_check cfg0 st10 (solN 5) .unsigned = .error .wrongWinnerCount ∧
    submit_unsigned cfg0 st10 none (solN 5) = .panic :=
  ⟨rfl, rfl,
   (claim_C10_submit_unsigned_panics cfg0 st10 (solN 5)).1 rfl .wrongWinnerCount
     rfl⟩

/-! ## C8: the miner's weight-budget trimming is dead code -/

/-- `WitnessData`: the caller-supplied size hint. -/
structure WitnessData where
  voters : Nat
  targets : Nat
deriving DecidableEq, Repr, Inhabited

/-- The `next_voters` closure of `maximum_compact_len`: step up while under
budget (within `max_voters`), step down while over (guarding underflow),
stop exactly on budget. -/
def nextVoters (current_weight max_weight voters step max_voters : Nat) :
    Except Unit Nat :=
  match compare current_weight max_weight with
  | .lt => if voters + step < max_voters then .ok (voters + step) else .error ()
  | .gt => if step ≤ voters then .ok (voters - step) else .error ()
  | .eq => .ok voters

/-- The step-halving `while step > 0` loop of `maximum_compact_len`
(`weight_with` ignores its argument in the source, so the constant weight
`w` stands for `current_weight` throughout).  `.error v` encodes the
source's early `return v`. -/
def halvingLoop (max_voters max_weight w voters step : Nat) : Except Nat Nat :=
  if step = 0 then .ok voters
  else
    match nextVoters w max_weight voters step max_voters with
    | .ok next =>
      if next ≠ voters then halvingLoop max_voters max_weight w next (step / 2)
      else .error next
    | .error _ => .ok voters
termination_by step
decreasing_by exact Nat.div_lt_self (Nat.pos_of_ne_zero (by assumption)) one_lt_two

/-- The `+1` linear-correction loop. -/
def upLoop (max_voters max_weight w voters : Nat) : Nat :=
  if voters + 1 ≤ max_voters ∧ w < max_weight then
    upLoop max_voters max_weight w (voters + 1)
  else voters
termination_by max_voters - voters
decreasing_by
  rename_i h
  omega

/-- The `-1` linear-correction loop. -/
def downLoop (max_weight w voters : Nat) : Nat :=
  if 1 ≤ voters ∧ max_weight < w then downLoop max_weight w (voters - 1)
  else voters
termination_by voters
decreasing_by
  rename_i h
  omega

/-- `Module::maximum_compact_len`: the weight-budget-determined maximum
number of voters a compact may keep (returns `witness.voters` immediately
when it is zero). -/
def maximum_compact_len (cfg : Config) (_winners_len : Nat)
    (witness : WitnessData) (max_weight : Nat) : Nat :=
  if witness.voters < 1 then witness.voters
  else
    let max_voters := max witness.voters 1
    let w := cfg.submitUnsignedWeight
    match halvingLoop max_voters max_weight w max_voters (max_voters / 2) with
    | .error early => early
    | .ok v =>
      min (downLoop max_weight w (upLoop max_voters max_weight w v))
        witness.voters

/-- The inner loop of `Module::trim_compact` over the stake-ascending
voter list: resolve each voter's index (`SnapshotUnavailable` on failure),
remove it from the compact, and stop once `to_remove` removals succeeded. -/
def trimLoop (voters_sorted : List (AccountId × Nat)) (to_remove removed : Nat)
    (compact : TestCompact) (nominator_index : AccountId → Option Nat) :
    Except PalletFlowError TestCompact :=
  match voters_sorted with
  | [] => .ok compact
  | (who, _stake) :: rest =>
    match nominator_index who with
    | none => .error .snapshotUnAvailable
    | some index =>
      let r := compact.remove_voter index
      let removed' := if r.1 then removed + 1 else removed
      if to_remove ≤ removed' then .ok r.2
      else trimLoop rest to_remove removed' r.2 nominator_index

/-- `Module::trim_compact`: when the compact holds more voters than
`maximum_allowed_voters`, remove voters lowest-stake-first (stable sort by
stake) until enough removals succeeded; otherwise return it untouched. -/
def trim_compact (st : State) (maximum_allowed_voters : Nat)
    (compact : TestCompact) (nominator_index : AccountId → Option Nat) :
    Except PalletFlowError TestCompact :=
  if compact.len ≤ maximum_allowed_voters then .ok compact
  else
    match st.snapshotVoters with
    | none => .error .snapshotUnAvailable
    | some voters =>
      let to_remove := compact.len - maximum_allowed_voters
      let voters_sorted :=
        (voters.map (fun v => (v.who, v.stake))).mergeSort
          (fun a b => a.2 ≤ b.2)
      trimLoop voters_sorted to_remove 0 compact nominator_index

/-- The compact-trimming step of `prepare_election_result` exactly as the
source performs it: `maximum_allowed_voters` is computed from the weight
budget (`maximum_compact_len(0, Default::default(), 0)`) and then **left
unused** — the call passes `compact.len()` as the bound instead. -/
def prepare_trim_step (cfg : Config) (st : State) (compact : TestCompact)
    (voter_index : AccountId → Option Nat) :
    Except PalletFlowError TestCompact :=
  let _maximum_allowed_voters := maximum_compact_len cfg 0 default 0
  trim_compact st compact.len compact voter_index

/-- C8 (code bug): the miner's trimming step never removes any voter —
`prepare_election_result` binds the weight-budget bound
`maximum_allowed_voters` but passes `compact.len()` to `trim_compact`, so
the trim is the identity on every compact and the submitted solution's
length is **not** bounded by the weight budget (which, at the call's
arguments — zero max weight and a default witness — is 0). -/
theorem claim_C8_prepare_trim_is_identity (cfg : Config) (st : State)
    (compact : TestCompact) (f : AccountId → Option Nat) :
    prepare_trim_step cfg st compact f = .ok compact ∧
    maximum_compact_len cfg 0 default 0 = 0 := by
  constructor
  · show trim_compact st compact.len compact f = .ok compact
    rw [trim_compact, if_pos (Nat.le_refl _)]
  · rfl

/-! ## C7: the codec round trip -/

/-- The sum of an assignment's explicit (all-but-last) shares. -/
def explicitSum {A : Type} (a : Assignment A) : Nat :=
  (a.distribution.dropLast.map (·.2)).sum

/-- Replace the last share of an assignment by `one − Σ explicit shares`
(the value the codec's implicit-last-share encoding reconstructs). -/
def replaceLastShare {A : Type} (a : Assignment A) : Assignment A :=
  match a.distribution.getLast? with
  | none => a
  | some tp => ⟨a.who, a.distribution.dropLast ++ [(tp.1, 65535 - explicitSum a)]⟩

/-- Regroup an assignment list by fan-out, arity-ascending, keeping the
original relative order inside each arity class (the order
`into_assignment ∘ from_assignment` produces). -/
def groupByArity {A : Type} (l : List (Assignment A)) : List (Assignment A) :=
  (List.range 16).flatMap
    (fun k => l.filter (fun a => a.distribution.length = k + 1))

/-- The compact tuple `from_assignment` builds for one assignment (under
resolving index functions — the `getD 0` defaults never fire then). -/
def encodeCVote {A : Type} (vIdx tIdx : A → Option Nat) (a : Assignment A) :
    CVote :=
  ⟨(vIdx a.who).getD 0,
   a.distribution.dropLast.map (fun tp => ((tIdx tp.1).getD 0, tp.2)),
   match a.distribution.getLast? with
   | some tp => (tIdx tp.1).getD 0
   | none => 0⟩

/-- The sixteen buckets `from_assignment` produces: bucket `k` holds the
encodings of the arity-`(k+1)` assignments in order. -/
def bucketsOfAux {A : Type} (vIdx tIdx : A → Option Nat)
    (l : List (Assignment A)) : List (List CVote) :=
  (List.range 16).map
    (fun k =>
      (l.filter (fun a => a.distribution.length = k + 1)).map
        (encodeCVote vIdx tIdx))

theorem mapM_ok_of_forall {α β ε : Type} (f : α → Except ε β) (g : α → β)
    (l : List α) (h : ∀ x ∈ l, f x = .ok (g x)) :
    l.mapM f = .ok (l.map g) := by
  induction l with
  | nil => rfl
  | cons x xs ih =>
    rw [List.mapM_cons, h x (List.mem_cons_self x xs),
      ih (fun y hy => h y (List.mem_cons_of_mem x hy))]
    rfl

theorem mapM_map_comp {α β γ ε : Type} (g : α → β) (f : β → Except ε γ)
    (l : List α) : (l.map g).mapM f = l.mapM (fun x => f (g x)) := by
  induction l with
  | nil => rfl
  | cons x xs ih => rw [List.map_cons, List.mapM_cons, List.mapM_cons, ih]

theorem mapM_isOk_of_forall {α β ε : Type} (f : α → Except ε β) (l : List α)
    (h : ∀ x ∈ l, (f x).isOk = true) : ∃ ys, l.mapM f = .ok ys := by
  induction l with
  | nil => exact ⟨[], rfl⟩
  | cons x xs ih =>
    obtain ⟨ys, hys⟩ := ih (fun y hy => h y (List.mem_cons_of_mem x hy))
    have hx := h x (List.mem_cons_self x xs)
    rcases hfx : f x with e | b
    · rw [hfx] at hx
      cases hx
    · exact ⟨b :: ys, by rw [List.mapM_cons, hfx, hys]; rfl⟩

theorem foldl_satAdd_eq (l : List (Nat × Nat)) :
    ∀ acc, acc ≤ 65535 →
      l.foldl (fun acc tp => satAddPerU16 acc tp.2) acc =
        min (acc + (l.map (·.2)).sum) 65535 := by
  induction l with
  | nil =>
    intro acc h
    simp only [List.foldl_nil, List.map_nil, List.sum_nil, Nat.add_zero]
    omega
  | cons tp tps ih =>
    intro acc h
    rw [List.foldl_cons, ih (satAddPerU16 acc tp.2) (by simp [satAddPerU16])]
    simp only [satAddPerU16, List.map_cons, List.sum_cons]
    omega

theorem mem_of_getLast?_eq_some {α : Type} {l : List α} {x : α}
    (h : l.getLast? = some x) : x ∈ l := by
  have hx : x ∈ l.getLast? := by rw [h]; rfl
  obtain ⟨hne, rfl⟩ := List.mem_getLast?_eq_getLast hx
  exact List.getLast_mem hne

/-- One `from_assignment` iteration on a resolvable assignment of arity
`1..16` appends its encoding to the bucket of its arity. -/
theorem fromAssignmentOne_push {A : Type} (vIdx tIdx : A → Option Nat)
    (c : TestCompact) (a : Assignment A)
    (hlen : 1 ≤ a.distribution.length) (hlen16 : a.distribution.length ≤ 16)
    (hv : ∃ i, vIdx a.who = some i)
    (ht : ∀ tp ∈ a.distribution, ∃ j, tIdx tp.1 = some j) :
    fromAssignmentOne vIdx tIdx c a =
      .ok (c.push (a.distribution.length - 1) (encodeCVote vIdx tIdx a)) := by
  obtain ⟨i, hi⟩ := hv
  rcases hgl : a.distribution.getLast? with _ | tp
  · rw [List.getLast?_eq_none_iff] at hgl
    rw [hgl] at hlen
    simp at hlen
  · obtain ⟨j, hj⟩ := ht tp (mem_of_getLast?_eq_some hgl)
    have hinners :
        a.distribution.dropLast.mapM
            (fun tp => do
              let t ← orInvalidIndex (tIdx tp.1)
              pure (t, tp.2)) =
          .ok (a.distribution.dropLast.map
            (fun tp => ((tIdx tp.1).getD 0, tp.2))) := by
      apply mapM_ok_of_forall
      intro tp' htp'
      obtain ⟨j', hj'⟩ := ht tp' ((List.dropLast_sublist _).subset htp')
      rw [hj']
      rfl
    simp only [fromAssignmentOne]
    rw [if_neg (by omega), if_pos hlen16]
    simp only [hi, hinners, hgl, hj, encodeCVote, Option.getD_some]
    rfl

theorem getD_map_range {β : Type} (f : Nat → β) (n i : Nat) (d : β)
    (h : i < n) : ((List.range n).map f).getD i d = f i := by
  rw [List.getD_eq_getElem _ _ (by simpa using h)]
  simp [List.getElem_range]

theorem set_map_range {β : Type} (f : Nat → β) (n i : Nat) (v : β) :
    ((List.range n).map f).set i v =
      (List.range n).map (fun j => if j = i then v else f j) := by
  apply List.ext_getElem
  · simp
  · intro j h1 h2
    rw [List.getElem_set]
    simp only [List.getElem_map, List.getElem_range]
    by_cases hj : i = j
    · rw [if_pos hj, if_pos hj.symm]
    · rw [if_neg hj, if_neg (fun hh => hj hh.symm)]

/-- Appending one arity-`k` assignment extends exactly bucket `k-1`. -/
theorem bucketsOfAux_append_one {A : Type} (vIdx tIdx : A → Option Nat)
    (l : List (Assignment A)) (a : Assignment A)
    (hlen : 1 ≤ a.distribution.length) (hlen16 : a.distribution.length ≤ 16) :
    (TestCompact.mk (bucketsOfAux vIdx tIdx l)).push
        (a.distribution.length - 1) (encodeCVote vIdx tIdx a) =
      ⟨bucketsOfAux vIdx tIdx (l ++ [a])⟩ := by
  rw [TestCompact.push]
  congr 1
  show (bucketsOfAux vIdx tIdx l).set (a.distribution.length - 1)
      ((bucketsOfAux vIdx tIdx l).getD (a.distribution.length - 1) [] ++
        [encodeCVote vIdx tIdx a]) =
    bucketsOfAux vIdx tIdx (l ++ [a])
  have hk : a.distribution.length - 1 < 16 := by omega
  rw [bucketsOfAux, bucketsOfAux, getD_map_range _ _ _ _ hk, set_map_range]
  apply List.map_congr_left
  intro j hj
  rw [List.mem_range] at hj
  rw [List.filter_append]
  by_cases hcase : j = a.distribution.length - 1
  · rw [if_pos hcase]
    have hfa : [a].filter (fun x => x.distribution.length = j + 1) = [a] := by
      simp [List.filter_cons]
      omega
    rw [hfa, List.map_append, hcase]
    rfl
  · rw [if_neg hcase]
    have hfa : [a].filter (fun x => x.distribution.length = j + 1) = [] := by
      simp [List.filter_cons]
      omega
    rw [hfa, List.append_nil]

/-- `from_assignment` on a resolvable, arity-`1..16` assignment list
produces exactly the arity-grouped buckets. -/
theorem from_assignment_eq {A : Type} (vIdx tIdx : A → Option Nat)
    (l : List (Assignment A))
    (h1 : ∀ a ∈ l, 1 ≤ a.distribution.length ∧ a.distribution.length ≤ 16)
    (h2 : ∀ a ∈ l, ∃ i, vIdx a.who = some i)
    (h3 : ∀ a ∈ l, ∀ tp ∈ a.distribution, ∃ j, tIdx tp.1 = some j) :
    from_assignment vIdx tIdx l = .ok ⟨bucketsOfAux vIdx tIdx l⟩ := by
  induction l using List.reverseRecOn with
  | nil => rfl
  | append_singleton l a ih =>
    have hmem : a ∈ l ++ [a] := List.mem_append_right l (List.mem_cons_self a [])
    have ihl := ih (fun x hx => h1 x (List.mem_append_left _ hx))
      (fun x hx => h2 x (List.mem_append_left _ hx))
      (fun x hx => h3 x (List.mem_append_left _ hx))
    calc from_assignment vIdx tIdx (l ++ [a])
        = from_assignment vIdx tIdx l >>= fun c =>
            [a].foldlM (fromAssignmentOne vIdx tIdx) c := by
          rw [from_assignment, from_assignment, List.foldlM_append]
      _ = fromAssignmentOne vIdx tIdx ⟨bucketsOfAux vIdx tIdx l⟩ a >>= pure := by
          rw [ihl]
          exact rfl
      _ = .ok ⟨bucketsOfAux vIdx tIdx (l ++ [a])⟩ := by
          rw [fromAssignmentOne_push vIdx tIdx _ a (h1 a hmem).1 (h1 a hmem).2
            (h2 a hmem) (h3 a hmem),
            bucketsOfAux_append_one vIdx tIdx l a (h1 a hmem).1 (h1 a hmem).2]
          rfl

/-- Decoding an encoded tuple restores the assignment up to the implicit
last share (`one − Σ explicit`), provided the index functions invert each
other on the used identifiers and the explicit shares sum below `one`. -/
theorem decodeCVote_encodeCVote {A : Type} (vIdx tIdx : A → Option Nat)
    (vAt tAt : Nat → Option A) (a : Assignment A)
    (hlen : 1 ≤ a.distribution.length)
    (hv : ∃ i, vIdx a.who = some i ∧ vAt i = some a.who)
    (ht : ∀ tp ∈ a.distribution, ∃ j, tIdx tp.1 = some j ∧ tAt j = some tp.1)
    (hsum : explicitSum a < 65535) :
    decodeCVote vAt tAt (encodeCVote vIdx tIdx a) = .ok (replaceLastShare a) := by
  obtain ⟨i, hi, hvi⟩ := hv
  rcases hgl : a.distribution.getLast? with _ | tp
  · rw [List.getLast?_eq_none_iff] at hgl
    rw [hgl] at hlen
    simp at hlen
  · obtain ⟨j, hj, htj⟩ := ht tp (mem_of_getLast?_eq_some hgl)
    have hfold :
        (a.distribution.dropLast.map
            (fun tp => ((tIdx tp.1).getD 0, tp.2))).foldl
          (fun acc tp => satAddPerU16 acc tp.2) 0 = explicitSum a := by
      rw [foldl_satAdd_eq _ 0 (by omega), List.map_map]
      have hcomp :
          ((fun x : Nat × Nat => x.2) ∘
              fun tp : A × Nat => ((tIdx tp.1).getD 0, tp.2)) =
            fun tp : A × Nat => tp.2 := rfl
      rw [hcomp]
      have : explicitSum a = (a.distribution.dropLast.map (fun tp => tp.2)).sum :=
        rfl
      omega
    have hinners :
        (a.distribution.dropLast.map
            (fun tp => ((tIdx tp.1).getD 0, tp.2))).mapM
          (fun tp => do
            let t ← orInvalidIndex (tAt tp.1)
            pure (t, tp.2)) = .ok a.distribution.dropLast := by
      rw [mapM_map_comp]
      have h := mapM_ok_of_forall
        (fun tp : A × Nat => do
          let t ← orInvalidIndex (tAt ((tIdx tp.1).getD 0))
          pure (t, tp.2))
        id a.distribution.dropLast ?_
      · rw [List.map_id] at h
        exact h
      · intro tp' htp'
        obtain ⟨j', hj', htj'⟩ := ht tp' ((List.dropLast_sublist _).subset htp')
        simp only [hj', Option.getD_some, htj', orInvalidIndex]
        rfl
    have hnot : ¬(65535 ≤ explicitSum a) := by omega
    simp only [decodeCVote, encodeCVote, hfold, hinners, hgl, hi, hj, htj, hvi,
      Option.getD_some, if_neg hnot]
    simp only [replaceLastShare, hgl]
    rfl

theorem mem_of_mem_groupByArity {A : Type} {l : List (Assignment A)}
    {a : Assignment A} (h : a ∈ groupByArity l) : a ∈ l := by
  rw [groupByArity, List.mem_flatMap] at h
  obtain ⟨k, _, hk⟩ := h
  exact List.mem_of_mem_filter hk

/-- Decoding the arity-grouped buckets yields the regrouped assignment
list with the implicit last shares reconstructed. -/
theorem into_assignment_bucketsOfAux {A : Type} (vIdx tIdx : A → Option Nat)
    (vAt tAt : Nat → Option A) (l : List (Assignment A))
    (h1 : ∀ a ∈ l, 1 ≤ a.distribution.length ∧ a.distribution.length ≤ 16)
    (h2 : ∀ a ∈ l, ∃ i, vIdx a.who = some i ∧ vAt i = some a.who)
    (h3 : ∀ a ∈ l, ∀ tp ∈ a.distribution,
      ∃ j, tIdx tp.1 = some j ∧ tAt j = some tp.1)
    (h4 : ∀ a ∈ l, explicitSum a < 65535) :
    (⟨bucketsOfAux vIdx tIdx l⟩ : TestCompact).into_assignment vAt tAt =
      .ok ((groupByArity l).map replaceLastShare) := by
  rw [TestCompact.into_assignment]
  have hflat : (TestCompact.mk (bucketsOfAux vIdx tIdx l)).buckets.flatten =
      (groupByArity l).map (encodeCVote vIdx tIdx) := by
    show (bucketsOfAux vIdx tIdx l).flatten = _
    rw [bucketsOfAux, groupByArity, ← List.flatMap_def, List.map_flatMap]
  rw [hflat, mapM_map_comp]
  apply mapM_ok_of_forall
  intro a ha
  have hal : a ∈ l := mem_of_mem_groupByArity ha
  exact decodeCVote_encodeCVote vIdx tIdx vAt tAt a (h1 a hal).1 (h2 a hal)
    (h3 a hal) (h4 a hal)

/-- A compact tuple whose indices all resolve and whose explicit shares
stay below `one` decodes successfully. -/
theorem decodeCVote_isOk {A : Type} (vAt tAt : Nat → Option A) (e : CVote)
    (hv : (vAt e.voter).isSome = true)
    (hts : ∀ tp ∈ e.inners, (tAt tp.1).isSome = true)
    (htl : (tAt e.tlast).isSome = true)
    (hsum : (e.inners.map (·.2)).sum < 65535) :
    ∃ v, decodeCVote vAt tAt e = .ok v := by
  have hside : ∀ tp ∈ e.inners, ((do
      let t ← orInvalidIndex (tAt tp.1)
      pure (t, tp.2) : Except NposError (A × Nat))).isOk = true := by
    intro tp htp
    rcases ht' : tAt tp.1 with _ | t
    · have := hts tp htp
      rw [ht'] at this
      cases this
    · simp only [ht', orInvalidIndex]
      rfl
  obtain ⟨ys, hys⟩ := mapM_isOk_of_forall
    (fun tp : Nat × Nat => do
      let t ← orInvalidIndex (tAt tp.1)
      pure (t, tp.2)) e.inners hside
  rcases hv' : vAt e.voter with _ | w
  · rw [hv'] at hv
    cases hv
  · rcases htl' : tAt e.tlast with _ | tl
    · rw [htl'] at htl
      cases htl
    · have hfold : e.inners.foldl (fun acc tp => satAddPerU16 acc tp.2) 0 =
          (e.inners.map (·.2)).sum := by
        rw [foldl_satAdd_eq _ 0 (by omega)]
        omega
      have hnot : ¬(65535 ≤ (e.inners.map (·.2)).sum) := by omega
      refine ⟨⟨w, ys ++ [(tl, 65535 - (e.inners.map (·.2)).sum)]⟩, ?_⟩
      simp only [decodeCVote, hfold, hys, hv', htl', if_neg hnot]
      exact rfl

/-- If any tuple's explicit shares sum to `one` or more (all indices
resolving), decoding the whole list fails with `CompactStakeOverflow`. -/
theorem mapM_decode_overflow {A : Type} (vAt tAt : Nat → Option A)
    (es : List CVote)
    (hres : ∀ e ∈ es, (vAt e.voter).isSome = true ∧
      (∀ tp ∈ e.inners, (tAt tp.1).isSome = true) ∧ (tAt e.tlast).isSome = true)
    (hover : ∃ e ∈ es, 65535 ≤ (e.inners.map (·.2)).sum) :
    es.mapM (decodeCVote vAt tAt) = .error .compactStakeOverflow := by
  induction es with
  | nil =>
    obtain ⟨e, he, _⟩ := hover
    cases he
  | cons e rest ih =>
    obtain ⟨hv, hts, htl⟩ := hres e (List.mem_cons_self e rest)
    by_cases hcase : 65535 ≤ (e.inners.map (·.2)).sum
    · have hdec : decodeCVote vAt tAt e = .error .compactStakeOverflow := by
        have hside : ∀ tp ∈ e.inners, ((do
            let t ← orInvalidIndex (tAt tp.1)
            pure (t, tp.2) : Except NposError (A × Nat))).isOk = true := by
          intro tp htp
          rcases ht' : tAt tp.1 with _ | t
          · have := hts tp htp
            rw [ht'] at this
            cases this
          · simp only [ht', orInvalidIndex]
            rfl
        obtain ⟨ys, hys⟩ := mapM_isOk_of_forall
          (fun tp : Nat × Nat => do
            let t ← orInvalidIndex (tAt tp.1)
            pure (t, tp.2)) e.inners hside
        have hfold : e.inners.foldl (fun acc tp => satAddPerU16 acc tp.2) 0 =
            min ((e.inners.map (·.2)).sum) 65535 := by
          rw [foldl_satAdd_eq _ 0 (by omega)]
          omega
        have hyes : 65535 ≤ min ((e.inners.map (·.2)).sum) 65535 := by omega
        simp only [decodeCVote, hfold, hys, if_pos hyes]
        exact rfl
      rw [List.mapM_cons, hdec]
      rfl
    · obtain ⟨v, hvdec⟩ := decodeCVote_isOk vAt tAt e hv hts htl (by omega)
      have hrest : rest.mapM (decodeCVote vAt tAt) =
          .error .compactStakeOverflow := by
        apply ih (fun x hx => hres x (List.mem_cons_of_mem e hx))
        obtain ⟨e', he', hsum'⟩ := hover
        rw [List.mem_cons] at he'
        rcases he' with rfl | he'
        · omega
        · exact ⟨e', he', hsum'⟩
      rw [List.mapM_cons, hvdec, hrest]
      rfl

theorem count_flatMap_eq {α β : Type} [DecidableEq β] (f : α → List β)
    (l : List α) (b : β) :
    (l.flatMap f).count b = (l.map (fun a => (f a).count b)).sum := by
  induction l with
  | nil => rfl
  | cons x xs ih => simp [List.flatMap_cons, List.count_append, ih]

theorem count_filter_eq {α : Type} [DecidableEq α] (p : α → Bool) (l : List α)
    (a : α) : (l.filter p).count a = if p a = true then l.count a else 0 := by
  induction l with
  | nil => simp
  | cons x xs ih =>
    by_cases hp : p x = true
    · simp only [List.filter_cons, if_pos hp, List.count_cons, ih]
      by_cases hax : a = x
      · subst hax
        simp [hp]
      · simp [Ne.symm hax]
    · simp only [List.filter_cons, if_neg hp, List.count_cons, ih]
      by_cases hax : a = x
      · subst hax
        simp [hp]
      · simp [Ne.symm hax]

theorem sum_arity_indicator (L c n : Nat) (h1 : 1 ≤ L) (hle : L ≤ n) :
    ((List.range n).map (fun k => if L = k + 1 then c else 0)).sum = c := by
  induction n with
  | zero => omega
  | succ n ih =>
    rw [List.range_succ, List.map_append, List.sum_append]
    by_cases hm : L = n + 1
    · have h0 : ((List.range n).map (fun k => if L = k + 1 then c else 0)).sum = 0 := by
        apply List.sum_eq_zero
        intro x hx
        obtain ⟨k, hk, rfl⟩ := List.mem_map.mp hx
        have hkn := List.mem_range.mp hk
        rw [if_neg (by omega)]
      rw [h0, List.map_cons, List.map_nil, if_pos hm]
      simp
    · rw [ih (by omega)]
      simp [hm]

/-- Regrouping by arity is a permutation of the original list (every entry
with fan-out in `1..16` lands in exactly one arity class). -/
theorem groupByArity_perm {A : Type} (l : List (Assignment A))
    (h1 : ∀ a ∈ l, 1 ≤ a.distribution.length ∧ a.distribution.length ≤ 16) :
    (groupByArity l).Perm l := by
  classical
  rw [List.perm_iff_count]
  intro x
  rw [groupByArity, count_flatMap_eq]
  by_cases hx : x ∈ l
  · simp only [count_filter_eq, decide_eq_true_eq]
    exact sum_arity_indicator x.distribution.length (l.count x) 16
      (h1 x hx).1 (h1 x hx).2
  · have h0 : l.count x = 0 := List.count_eq_zero_of_not_mem hx
    simp [count_filter_eq, h0]

/-- The assignment list used to exercise C7: one fan-out-2 voter followed
by one fan-out-1 voter, all identifiers resolving under the identity index
maps. -/
def l7 : List (Assignment Nat) :=
  [⟨0, [(0, 30000), (1, 35535)]⟩, ⟨1, [(0, 65535)]⟩]

/-- **C7** (amended). Under resolving index maps, `from_assignment` encodes a
valid assignment list (fan-outs in `1..16`, each entry's explicit shares
summing below `one`) into the sixteen arity buckets, and `into_assignment`
decodes those buckets back to the list regrouped by ascending fan-out —
each entry's last share replaced by `one − Σ explicit shares` — which is a
permutation of the original list after the same last-share replacement, but
not the original order itself; and on any compact holding a tuple whose
explicit shares sum to `one` or more (all indices resolving),
`into_assignment` returns the `CompactStakeOverflow` error rather than
panicking. -/
theorem claim_C7_compact_roundtrip {A : Type} (vIdx tIdx : A → Option Nat)
    (vAt tAt : Nat → Option A) (l : List (Assignment A))
    (h1 : ∀ a ∈ l, 1 ≤ a.distribution.length ∧ a.distribution.length ≤ 16)
    (h2 : ∀ a ∈ l, ∃ i, vIdx a.who = some i ∧ vAt i = some a.who)
    (h3 : ∀ a ∈ l, ∀ tp ∈ a.distribution,
      ∃ j, tIdx tp.1 = some j ∧ tAt j = some tp.1)
    (h4 : ∀ a ∈ l, explicitSum a < 65535) :
    (from_assignment vIdx tIdx l = .ok ⟨bucketsOfAux vIdx tIdx l⟩ ∧
      TestCompact.into_assignment ⟨bucketsOfAux vIdx tIdx l⟩ vAt tAt =
        .ok ((groupByArity l).map replaceLastShare) ∧
      ((groupByArity l).map replaceLastShare).Perm
        (l.map replaceLastShare)) ∧
    (∀ c : TestCompact,
      (∀ e ∈ c.buckets.flatten, (vAt e.voter).isSome = true ∧
        (∀ tp ∈ e.inners, (tAt tp.1).isSome = true) ∧
        (tAt e.tlast).isSome = true) →
      (∃ e ∈ c.buckets.flatten, 65535 ≤ (e.inners.map (·.2)).sum) →
      TestCompact.into_assignment c vAt tAt = .error .compactStakeOverflow) := by
  refine ⟨⟨?_, ?_, ?_⟩, ?_⟩
  · exact from_assignment_eq vIdx tIdx l h1
      (fun a ha => (h2 a ha).imp (fun i hi => hi.1))
      (fun a ha tp htp => ((h3 a ha tp htp).imp (fun j hj => hj.1)))
  · exact into_assignment_bucketsOfAux vIdx tIdx vAt tAt l h1 h2 h3 h4
  · exact (groupByArity_perm l h1).map replaceLastShare
  · intro c hres hover
    rw [TestCompact.into_assignment]
    exact mapM_decode_overflow vAt tAt c.buckets.flatten hres hover

/-- **C7** counterexample to the literal claim: the round trip on a mixed
fan-out list succeeds but returns the entries regrouped by arity — the
fan-out-1 voter now precedes the fan-out-2 voter — so the decoded list is
not the original one. -/
theorem claim_C7_counterexample :
    (do
      let c ← from_assignment (fun v : Nat => some v) (fun t : Nat => some t) l7
      TestCompact.into_assignment c (fun v : Nat => some v)
        (fun t : Nat => some t)) =
      .ok [⟨1, [(0, 65535)]⟩, ⟨0, [(0, 30000), (1, 35535)]⟩] ∧
    ([⟨1, [(0, 65535)]⟩, ⟨0, [(0, 30000), (1, 35535)]⟩] :
        List (Assignment Nat)) ≠ l7 :=
  ⟨rfl, by decide⟩

/-- **C7** witness: the amended round-trip theorem instantiated on `l7`
under the identity index maps. -/
theorem claim_C7_witness :
    from_assignment (fun v : Nat => some v) (fun t : Nat => some t) l7 =
      .ok ⟨bucketsOfAux (fun v : Nat => some v) (fun t : Nat => some t) l7⟩ ∧
    TestCompact.into_assignment
        ⟨bucketsOfAux (fun v : Nat => some v) (fun t : Nat => some t) l7⟩
        (fun v : Nat => some v) (fun t : Nat => some t) =
      .ok ((groupByArity l7).map replaceLastShare) := by
  have h := claim_C7_compact_roundtrip (fun v : Nat => some v)
    (fun t : Nat => some t) (fun v : Nat => some v) (fun t : Nat => some t)
    l7 (by decide) (fun a _ => ⟨a.who, rfl, rfl⟩)
    (fun a _ tp _ => ⟨tp.1, rfl, rfl⟩) (by decide)
  exact ⟨h.1.1, h.1.2.1⟩

end TwoPhase
